import Mathlib

/-!
Verification of the pseudo-Boolean theory plugin (`smt::theory_pb`,
file `src/smt/theory_pb.cpp`) against its design specification.

The development shallowly embeds the data model and the operations of the
plugin.  Numerals (`rational` in the source) are embedded as `ℤ`; literals
are a Boolean variable together with a sign bit; the assignment oracle
`ctx.get_assignment` is a function from variables to three-valued Booleans,
lifted to literals through the sign.
-/

set_option maxHeartbeats 1600000

namespace TheoryPb

/-- A literal: a Boolean variable with a sign bit (`sign = true` means the
variable occurs negated), mirroring `smt::literal`. -/
structure Lit where
  var : Nat
  sign : Bool
deriving DecidableEq, Repr

/-- Literal negation `~l`. -/
def Lit.neg (l : Lit) : Lit := ⟨l.var, !l.sign⟩

/-- The sentinel `true_literal` (variable 0, positive). -/
def trueLit : Lit := ⟨0, false⟩

/-- The sentinel `false_literal` (variable 0, negative). -/
def falseLit : Lit := ⟨0, true⟩

/-- Three-valued Boolean `lbool`. -/
inductive LBool where
  | lundef : LBool
  | ltrue : LBool
  | lfalse : LBool
deriving DecidableEq, Repr

open LBool

/-- Negation on `lbool`. -/
def LBool.negL : LBool → LBool
  | lundef => lundef
  | ltrue => lfalse
  | lfalse => ltrue

/-- A variable assignment: the host context's truth values for Boolean
variables (`ctx.get_assignment` restricted to variables). -/
def VAssign := Nat → LBool

/-- Assignment of a literal: the variable's value, flipped through the
literal's sign (`ctx.get_assignment(literal)`). -/
def litAsgn (va : VAssign) (l : Lit) : LBool :=
  if l.sign then (va l.var).negL else va l.var

/-- One argument of an inequality: a literal together with its positive
rational coefficient (`theory_pb::ineq::arg_t` entry). -/
abbrev Arg := Lit × ℤ

/-- Default argument used for out-of-range list reads (the C++ code never
reads out of range on the inputs the plugin produces). -/
def dArg : Arg := (trueLit, 0)

/-- The normalised inequality `∑ cᵢ·ℓᵢ ≥ k` with its watch and compilation
metadata, mirroring `theory_pb::ineq`. -/
structure Ineq where
  lit : Lit
  args : List Arg
  k : ℤ
  watchSz : Nat
  watchSum : ℤ
  maxWatch : ℤ
  numPropagations : Nat
  compilationThreshold : Nat
  compiled : LBool
deriving DecidableEq, Repr

/-- `UINT_MAX`, the "never compile" threshold. -/
def UINT_MAX : Nat := 2 ^ 32 - 1

/-- Tunable parameters consumed from the host (`theory_pb_params`). -/
structure Params where
  conflictFrequency : Nat
  enableCompilation : Bool
deriving DecidableEq, Repr

/-- Swap the entries at positions `i` and `j` of a list
(`std::swap(c.m_args[i], c.m_args[j])`); out-of-range indices leave the
list unchanged (the source never swaps out of range). -/
def swapIdx (l : List Arg) (i j : Nat) : List Arg :=
  match l[i]?, l[j]? with
  | some a, some b => (l.set i b).set j a
  | _, _ => l

theorem swapIdx_length (l : List Arg) (i j : Nat) :
    (swapIdx l i j).length = l.length := by
  unfold swapIdx
  cases h1 : l[i]? <;> cases h2 : l[j]? <;> simp

theorem swapIdx_getElem? (l : List Arg) (i j n : Nat) (hi : i < l.length)
    (hj : j < l.length) :
    (swapIdx l i j)[n]? =
      if n = j then l[i]? else if n = i then l[j]? else l[n]? := by
  unfold swapIdx
  rw [List.getElem?_eq_getElem hi, List.getElem?_eq_getElem hj]
  by_cases hnj : n = j
  · subst hnj
    simp [List.getElem?_set, hj, hi, List.getElem?_eq_getElem]
  · by_cases hni : n = i
    · subst hni
      rw [List.getElem?_set_ne (fun h => hnj h.symm)]
      simp [List.getElem?_set, hi, hnj, List.getElem?_eq_getElem hj]
    · rw [List.getElem?_set_ne (fun h => hnj h.symm),
        List.getElem?_set_ne (fun h => hni h.symm)]
      simp [hni, hnj]

theorem mem_swapIdx (l : List Arg) (i j : Nat) (a : Arg) :
    a ∈ swapIdx l i j ↔ a ∈ l := by
  by_cases hi : i < l.length
  · by_cases hj : j < l.length
    · constructor
      · intro hmem
        rcases List.mem_iff_getElem?.mp hmem with ⟨n, hn⟩
        rw [swapIdx_getElem? l i j n hi hj] at hn
        split at hn
        · exact List.mem_iff_getElem?.mpr ⟨i, hn⟩
        · split at hn
          · exact List.mem_iff_getElem?.mpr ⟨j, hn⟩
          · exact List.mem_iff_getElem?.mpr ⟨n, hn⟩
      · intro hmem
        rcases List.mem_iff_getElem?.mp hmem with ⟨n, hn⟩
        by_cases hni : n = i
        · subst hni
          refine List.mem_iff_getElem?.mpr ⟨j, ?_⟩
          rw [swapIdx_getElem? l n j j hi hj]
          simp [hn]
        · by_cases hnj : n = j
          · subst hnj
            refine List.mem_iff_getElem?.mpr ⟨i, ?_⟩
            rw [swapIdx_getElem? l i n i hi hj]
            by_cases hij : i = n
            · subst hij
              simp [hn]
            · simp [hij, hn]
          · refine List.mem_iff_getElem?.mpr ⟨n, ?_⟩
            rw [swapIdx_getElem? l i j n hi hj]
            simp [hni, hnj, hn]
    · have h : l[j]? = none := List.getElem?_eq_none (by omega)
      unfold swapIdx
      rw [h]
      cases l[i]? <;> rfl
  · have h : l[i]? = none := List.getElem?_eq_none (by omega)
    unfold swapIdx
    rw [h]

theorem swapIdx_take (l : List Arg) (i j s : Nat) (hsi : s ≤ i) (hsj : s ≤ j) :
    (swapIdx l i j).take s = l.take s := by
  by_cases hi : i < l.length
  · by_cases hj : j < l.length
    · apply List.ext_getElem?
      intro n
      by_cases hns : n < s
      · rw [List.getElem?_take_of_lt hns, List.getElem?_take_of_lt hns]
        rw [swapIdx_getElem? l i j n hi hj]
        have h1 : ¬(n = j) := by omega
        have h2 : ¬(n = i) := by omega
        simp [h1, h2]
      · rw [List.getElem?_eq_none, List.getElem?_eq_none]
        · rw [List.length_take]
          omega
        · rw [List.length_take, swapIdx_length]
          omega
    · have h : l[j]? = none := List.getElem?_eq_none (by omega)
      unfold swapIdx
      rw [h]
      cases l[i]? <;> rfl
  · have h : l[i]? = none := List.getElem?_eq_none (by omega)
    unfold swapIdx
    rw [h]

/-- `c.lit(i)`: the literal of the `i`-th argument. -/
def Ineq.argLit (c : Ineq) (i : Nat) : Lit := (c.args.getD i dArg).1

/-- `c.coeff(i)`: the coefficient of the `i`-th argument. -/
def Ineq.argCoeff (c : Ineq) (i : Nat) : ℤ := (c.args.getD i dArg).2

/-- `theory_pb::add_watch(c, i)`: move argument `i` into the watched
prefix, updating `watch_sum`, `watch_sz` and `max_watch`.  The source also
registers `c` in the per-literal watch multimap `m_watch`; that host-side
bookkeeping is not part of the inequality state and is omitted here. -/
def add_watch (c : Ineq) (i : Nat) : Ineq :=
  let coeff := c.argCoeff i
  let args' := if i > c.watchSz then swapIdx c.args i c.watchSz else c.args
  { c with
    args := args'
    watchSz := c.watchSz + 1
    watchSum := c.watchSum + coeff
    maxWatch := if coeff > c.maxWatch then coeff else c.maxWatch }

/-- The maximum-recomputation loop inside `theory_pb::del_watch`:
`coeff = c.coeff(0); for (i = 1; coeff != max_watch && i < watch_size; ++i)
if (coeff < c.coeff(i)) coeff = c.coeff(i);` -/
def recomputeMax (args : List Arg) (sz : Nat) (oldMax cur : ℤ) (i : Nat) : ℤ :=
  if h : cur ≠ oldMax ∧ i < sz then
    recomputeMax args sz oldMax
      (if cur < (args.getD i dArg).2 then (args.getD i dArg).2 else cur) (i + 1)
  else cur
termination_by sz - i

/-- `theory_pb::del_watch` restricted to the inequality state: drop the
watched argument at position `w` from the watched prefix (the removal of
`c` from the watch-list `watch` is host-side bookkeeping and omitted). -/
def del_watch (c : Ineq) (w : Nat) : Ineq :=
  let coeff := c.argCoeff w
  let args' := if w + 1 < c.watchSz then swapIdx c.args w (c.watchSz - 1) else c.args
  let sz' := c.watchSz - 1
  let max' :=
    if c.maxWatch = coeff then
      recomputeMax args' sz' c.maxWatch ((args'.getD 0 dArg).2) 1
    else c.maxWatch
  { c with args := args', watchSz := sz', watchSum := c.watchSum - coeff,
           maxWatch := max' }

/-- `theory_pb::get_unhelpful_literals(c, negate)`: the currently-false
literals of `c`, each optionally negated. -/
def get_unhelpful_literals (va : VAssign) (c : Ineq) (negate : Bool) : List Lit :=
  c.args.filterMap fun a =>
    if litAsgn va a.1 = lfalse then some (if negate then a.1.neg else a.1) else none

/-- `maxsum` as computed by `theory_pb::assign_ineq`: the sum of the
coefficients of the arguments that are not currently false. -/
def maxsum (va : VAssign) (c : Ineq) : ℤ :=
  c.args.foldl (fun s a => if litAsgn va a.1 ≠ lfalse then s + a.2 else s) 0

/-- `mininc` as computed by `theory_pb::assign_ineq`: the minimum
coefficient over the currently-undefined arguments (0 if there is none),
computed by the source's running-minimum loop. -/
def mininc (va : VAssign) (c : Ineq) : ℤ :=
  c.args.foldl
    (fun m a => if litAsgn va a.1 = lundef ∧ (m = 0 ∨ m > a.2) then a.2 else m) 0

/-- `theory_pb::inc_propagations`: bump the propagation counter and queue
the inequality for compilation once the counter crosses the threshold. -/
def inc_propagations (c : Ineq) : Ineq :=
  let c1 := { c with numPropagations := c.numPropagations + 1 }
  if c1.compiled = lfalse ∧ c1.numPropagations > c1.compilationThreshold then
    { c1 with compiled := lundef }
  else c1

/-- The effect of `theory_pb::add_clause` on the inequality, together with
whether `resolve_conflict` is invoked: it is invoked exactly when
`m_conflict_frequency == 0 || (0 == (c.m_num_propagations % m_conflict_frequency))`
after the counter has been incremented. -/
def add_clause_effect (p : Params) (c : Ineq) : Ineq × Bool :=
  let c1 := inc_propagations c
  (c1, p.conflictFrequency == 0 || c1.numPropagations % p.conflictFrequency == 0)

theorem add_watch_length (c : Ineq) (i : Nat) :
    (add_watch c i).args.length = c.args.length := by
  unfold add_watch
  dsimp only
  split <;> simp [swapIdx_length]

theorem add_watch_mem (c : Ineq) (i : Nat) (a : Arg) :
    a ∈ (add_watch c i).args ↔ a ∈ c.args := by
  unfold add_watch
  dsimp only
  split <;> simp [mem_swapIdx]

theorem add_watch_lit (c : Ineq) (i : Nat) : (add_watch c i).lit = c.lit := rfl

theorem add_watch_k (c : Ineq) (i : Nat) : (add_watch c i).k = c.k := rfl

/-- The greedy watch-initialisation loop of `theory_pb::assign_ineq`:
`for (unsigned i = 0; c.watch_sum() < c.k() + c.max_watch() && i < c.size(); ++i)
   if (ctx.get_assignment(c.lit(i)) != l_false) add_watch(c, i);` -/
def init_watch_loop (va : VAssign) (c : Ineq) (i : Nat) : Ineq :=
  if h : c.watchSum < c.k + c.maxWatch ∧ i < c.args.length then
    let c' := if litAsgn va (c.args.getD i dArg).1 ≠ lfalse then add_watch c i else c
    init_watch_loop va c' (i + 1)
  else c
termination_by c.args.length - i
decreasing_by
  have hlen : c'.args.length = c.args.length := by
    simp only [c']
    split
    · exact add_watch_length c i
    · rfl
  simp only [hlen]
  omega

/-- Result of activating an inequality (`theory_pb::assign_ineq`):
the updated inequality, the conflict clause (if any), the unit
propagations (propagated literal together with its explanation
literals), and whether `add_clause` invoked `resolve_conflict`. -/
structure AssignIneqResult where
  c : Ineq
  conflict : Option (List Lit)
  props : List (Lit × List Lit)
  resolveInvoked : Bool
deriving DecidableEq, Repr

/-- `theory_pb::assign_ineq(c, is_true)` for the already-aligned
inequality: the source first negates `c` when `c.lit().sign() == is_true`
(so that subsequent reasoning always works with `∑cᵢℓᵢ ≥ k` that must
hold); we model the activation of that aligned inequality.  Mirrors lines
1140–1186 of `theory_pb.cpp`. -/
def assign_ineq (p : Params) (va : VAssign) (c : Ineq) : AssignIneqResult :=
  let ms := maxsum va c
  let mi := mininc va c
  if ms < c.k then
    let lits := get_unhelpful_literals va c false ++ [c.lit.neg]
    let ci := add_clause_effect p c
    -- the trailing unit-propagation block is vacuous here: `maxsum ≥ k` fails
    { c := ci.1, conflict := some lits, props := [], resolveInvoked := ci.2 }
  else
    let c1 := init_watch_loop va { c with watchSum := 0, watchSz := 0, maxWatch := 0 } 0
    if ms ≥ c.k ∧ ms - mi < c.k then
      let expl := get_unhelpful_literals va c1 true ++ [c1.lit]
      let props := (c1.args.filter fun a => litAsgn va a.1 = lundef).map
        fun a => (a.1, expl)
      -- each `add_assign` bumps the propagation counter
      let c2 := props.foldl (fun acc _ => inc_propagations acc) c1
      { c := c2, conflict := none, props := props, resolveInvoked := false }
    else
      { c := c1, conflict := none, props := [], resolveInvoked := false }

theorem filterMap_if_eq_map_filter {α β : Type} (p : α → Prop) [DecidablePred p]
    (f : α → β) (l : List α) :
    (l.filterMap fun a => if p a then some (f a) else none) =
      (l.filter fun a => decide (p a)).map f := by
  induction l with
  | nil => rfl
  | cons x xs ih =>
    by_cases hx : p x <;> simp [List.filterMap_cons, List.filter_cons, hx, ih]

theorem init_watch_loop_mem (va : VAssign) (c : Ineq) (i : Nat) (a : Arg) :
    a ∈ (init_watch_loop va c i).args ↔ a ∈ c.args := by
  induction c, i using init_watch_loop.induct va with
  | case1 c i h c' ih =>
    rw [init_watch_loop, dif_pos h]
    show a ∈ (init_watch_loop va
      (if litAsgn va (c.args.getD i dArg).1 ≠ lfalse then add_watch c i else c)
      (i + 1)).args ↔ a ∈ c.args
    simp only [c', dite_eq_ite] at ih
    rw [ih]
    split
    · exact add_watch_mem c i a
    · exact Iff.rfl
  | case2 c i h =>
    rw [init_watch_loop, dif_neg h]

theorem init_watch_loop_lit (va : VAssign) (c : Ineq) (i : Nat) :
    (init_watch_loop va c i).lit = c.lit := by
  induction c, i using init_watch_loop.induct va with
  | case1 c i h c' ih =>
    rw [init_watch_loop, dif_pos h]
    show (init_watch_loop va
      (if litAsgn va (c.args.getD i dArg).1 ≠ lfalse then add_watch c i else c)
      (i + 1)).lit = c.lit
    simp only [c', dite_eq_ite] at ih
    rw [ih]
    split <;> rfl
  | case2 c i h =>
    rw [init_watch_loop, dif_neg h]

theorem mem_get_unhelpful (va : VAssign) (c : Ineq) (b : Bool) (x : Lit) :
    x ∈ get_unhelpful_literals va c b ↔
      ∃ m q, (m, q) ∈ c.args ∧ litAsgn va m = lfalse ∧
        x = (if b then m.neg else m) := by
  unfold get_unhelpful_literals
  rw [List.mem_filterMap]
  constructor
  · rintro ⟨a, ha, hx⟩
    split at hx
    · next hf => exact ⟨a.1, a.2, ha, hf, (Option.some.inj hx).symm⟩
    · exact absurd hx (by simp)
  · rintro ⟨m, q, hmem, hf, rfl⟩
    exact ⟨(m, q), hmem, by simp [hf]⟩

theorem get_unhelpful_false_eq (va : VAssign) (c : Ineq) :
    get_unhelpful_literals va c false =
      ((c.args.filter fun a => litAsgn va a.1 = lfalse).map Prod.fst) := by
  unfold get_unhelpful_literals
  rw [filterMap_if_eq_map_filter (fun a : Arg => litAsgn va a.1 = lfalse)
    (fun a : Arg => if (false : Bool) then a.1.neg else a.1) c.args]
  rfl

/-- C1: on activation of an inequality `C` by `assign_ineq`, if
`maxsum < k` the plugin emits the conflict clause made of `¬lit(C)` and
every currently-false literal of `C` (and propagates nothing); otherwise,
if `maxsum − mininc < k`, every currently-undefined literal of `C` is
propagated, each with the explanation built from `lit(C)` and the
negations of the currently-false literals. -/
theorem C1_assign_ineq_conflict_and_propagation (p : Params) (va : VAssign)
    (c : Ineq) :
    (maxsum va c < c.k →
      (assign_ineq p va c).conflict =
        some (((c.args.filter fun a => litAsgn va a.1 = lfalse).map Prod.fst)
          ++ [c.lit.neg]) ∧
      (∀ x, x ∈ ((c.args.filter fun a => litAsgn va a.1 = lfalse).map Prod.fst)
          ++ [c.lit.neg] ↔
        x = c.lit.neg ∨ ∃ q, (x, q) ∈ c.args ∧ litAsgn va x = lfalse) ∧
      (assign_ineq p va c).props = []) ∧
    (¬ maxsum va c < c.k → maxsum va c - mininc va c < c.k →
      (assign_ineq p va c).conflict = none ∧
      (∀ l e, (l, e) ∈ (assign_ineq p va c).props →
        (∃ q, (l, q) ∈ c.args ∧ litAsgn va l = lundef) ∧
        (∀ x, x ∈ e ↔ x = c.lit ∨
          ∃ m q, (m, q) ∈ c.args ∧ litAsgn va m = lfalse ∧ x = m.neg)) ∧
      (∀ l q, (l, q) ∈ c.args → litAsgn va l = lundef →
        ∃ e, (l, e) ∈ (assign_ineq p va c).props)) := by
  constructor
  · intro hms
    refine ⟨?_, ?_, ?_⟩
    · simp only [assign_ineq, if_pos hms, get_unhelpful_false_eq]
    · intro x
      simp only [List.mem_append, List.mem_map, List.mem_filter,
        List.mem_singleton, decide_eq_true_eq]
      constructor
      · rintro (⟨a, ⟨ha, hf⟩, rfl⟩ | rfl)
        · exact Or.inr ⟨a.2, ha, hf⟩
        · exact Or.inl rfl
      · rintro (rfl | ⟨q, hq, hf⟩)
        · exact Or.inr rfl
        · exact Or.inl ⟨(x, q), ⟨hq, hf⟩, rfl⟩
    · simp only [assign_ineq, if_pos hms]
  · intro hms hprop
    have hcond : maxsum va c ≥ c.k ∧ maxsum va c - mininc va c < c.k :=
      ⟨le_of_not_lt hms, hprop⟩
    obtain ⟨c1, hc1⟩ : ∃ c1, init_watch_loop va { c with watchSum := 0, watchSz := 0, maxWatch := 0 } 0 = c1 :=
      ⟨_, rfl⟩
    have hprops : (assign_ineq p va c).props =
        ((c1.args.filter fun a => litAsgn va a.1 = lundef).map
          fun a => (a.1, get_unhelpful_literals va c1 true ++ [c1.lit])) := by
      simp only [assign_ineq, if_neg hms, if_pos hcond, hc1]
    have hmem : ∀ a : Arg, a ∈ c1.args ↔ a ∈ c.args := by
      intro a
      rw [← hc1, init_watch_loop_mem]
    have hlit : c1.lit = c.lit := by
      rw [← hc1, init_watch_loop_lit]
    refine ⟨?_, ?_, ?_⟩
    · simp only [assign_ineq, if_neg hms, if_pos hcond]
    · intro l e hin
      rw [hprops] at hin
      obtain ⟨a, ha', heq⟩ := List.mem_map.mp hin
      obtain ⟨ha, hu⟩ := List.mem_filter.mp ha'
      have hu' : litAsgn va a.1 = lundef := by simpa using hu
      have h1 : a.1 = l := congrArg Prod.fst heq
      have h2 : get_unhelpful_literals va c1 true ++ [c1.lit] = e :=
        congrArg Prod.snd heq
      subst h1
      subst h2
      refine ⟨⟨a.2, (hmem a).mp ha, hu'⟩, ?_⟩
      intro x
      constructor
      · intro hx
        rcases List.mem_append.mp hx with hx' | hx'
        · obtain ⟨m, q, hmq, hf, hxe⟩ := (mem_get_unhelpful va c1 true x).mp hx'
          exact Or.inr ⟨m, q, (hmem (m, q)).mp hmq, hf, by simpa using hxe⟩
        · left
          rw [List.mem_singleton] at hx'
          rw [hx', hlit]
      · intro hx
        rcases hx with rfl | ⟨m, q, hmq, hf, rfl⟩
        · refine List.mem_append.mpr (Or.inr ?_)
          rw [List.mem_singleton, hlit]
        · refine List.mem_append.mpr (Or.inl ?_)
          exact (mem_get_unhelpful va c1 true _).mpr
            ⟨m, q, (hmem (m, q)).mpr hmq, hf, by simp⟩
    · intro l q hq hu
      rw [hprops]
      refine ⟨_, List.mem_map.mpr ⟨(l, q), List.mem_filter.mpr
        ⟨(hmem (l, q)).mpr hq, by simpa using hu⟩, rfl⟩⟩

/-- Concrete activation scenario for C1: `x₁ + x₂ + x₃ ≥ 2` with `x₁`
false and `x₂, x₃` undefined. -/
def cC1 : Ineq :=
  { lit := ⟨4, false⟩
    args := [(⟨1, false⟩, 1), (⟨2, false⟩, 1), (⟨3, false⟩, 1)]
    k := 2, watchSz := 0, watchSum := 0, maxWatch := 0
    numPropagations := 0, compilationThreshold := 10, compiled := lfalse }

/-- Assignment for the C1 scenario: variable 1 is false, the rest undefined. -/
def vaC1 : VAssign := fun n => if n = 1 then lfalse else lundef

theorem C1_witness :
    ¬ maxsum vaC1 cC1 < cC1.k ∧ maxsum vaC1 cC1 - mininc vaC1 cC1 < cC1.k ∧
      ∃ e, (⟨2, false⟩, e) ∈ (assign_ineq ⟨0, false⟩ vaC1 cC1).props :=
  ⟨by decide, by decide,
    (C1_assign_ineq_conflict_and_propagation ⟨0, false⟩ vaC1 cC1).2
      (by decide) (by decide) |>.2.2 ⟨2, false⟩ 1 (by decide) (by decide)⟩

/-- The watch-promotion loop of `theory_pb::assign_watch`:
`for (unsigned i = c.watch_size(); add_more && i < c.size(); ++i)
   if (ctx.get_assignment(c.lit(i)) != l_false) { add_watch(c, i);
     add_more = c.watch_sum() - coeff < k + c.max_watch(); }`.
Skipping a false literal leaves the state unchanged, so re-evaluating
`add_more` on every iteration is equivalent to the source's update-on-add. -/
def promote_loop (va : VAssign) (kk coeff : ℤ) (c : Ineq) (i : Nat) : Ineq :=
  if h : c.watchSum - coeff < kk + c.maxWatch ∧ i < c.args.length then
    let c' := if litAsgn va (c.args.getD i dArg).1 ≠ lfalse then add_watch c i else c
    promote_loop va kk coeff c' (i + 1)
  else c
termination_by c.args.length - i
decreasing_by
  have hlen : c'.args.length = c.args.length := by
    simp only [c']
    split
    · exact add_watch_length c i
    · rfl
  simp only [hlen]
  omega

/-- Result of `theory_pb::assign_watch`: either a conflict (clause plus
whether `add_clause` invoked `resolve_conflict`; the watch entry is kept,
`removed = false`) or no conflict (the falsified watch was removed,
`removed = true`) with the list of unit propagations. -/
inductive AssignWatchResult where
  | conflict (c : Ineq) (clause : List Lit) (resolveInvoked : Bool)
  | noconflict (c : Ineq) (props : List (Lit × List Lit))
deriving DecidableEq, Repr

/-- `theory_pb::assign_watch(v, is_true, watch, watch_index)`.  The index
`w` of the falsified literal inside the watched prefix is located by
`c.find_lit(v, 0, c.watch_size())` in the source (declared in the header);
we take `w` as a parameter.  The removal of `c` from the per-literal watch
list is host-side bookkeeping and omitted. -/
def assign_watch (p : Params) (va : VAssign) (w : Nat) (c : Ineq) :
    AssignWatchResult :=
  let kk := c.k
  let coeff := c.argCoeff w
  let c1 := promote_loop va kk coeff c c.watchSz
  if c1.watchSum - coeff < kk then
    let lits := get_unhelpful_literals va c1 false ++ [c1.lit.neg]
    let ci := add_clause_effect p c1
    .conflict ci.1 lits ci.2
  else
    let c2 := del_watch c1 w
    if c2.watchSum < kk + c2.maxWatch then
      let expl := get_unhelpful_literals va c2 true ++ [c2.lit]
      let deficit := c2.watchSum - kk
      let props := (c2.args.filter fun a =>
        litAsgn va a.1 = lundef ∧ deficit < a.2).map fun a => (a.1, expl)
      .noconflict (props.foldl (fun acc _ => inc_propagations acc) c2) props
    else
      .noconflict c2 []

/-- The compilation-threshold loop of `theory_pb::internalize_atom`:
`unsigned log = 1, n = 1; while (n <= args.size()) { ++log; n *= 2; }`.
The guard `0 < n` only rules out the unreachable start value `n = 0`
(the source enters with `n = 1` and doubles it). -/
def logLoop (s lg n : Nat) : Nat :=
  if h : 0 < n ∧ n ≤ s then logLoop s (lg + 1) (2 * n) else lg
termination_by s + 1 - n

/-- Result of the internalisation dispatch: the unit/clausal theory axioms
emitted through `ctx.mk_th_axiom`, and the inequality stored in
`m_ineqs` (none when the atom was discharged trivially or clausally). -/
structure InternalizeResult where
  thAxioms : List (List Lit)
  stored : Option Ineq
deriving DecidableEq, Repr

/-- The tail of `theory_pb::internalize_atom` (lines 880–940): the
dispatch on the result `is_true` of `normalize()` after
`unique(); normalize(); prune()` have produced the canonical inequality
`c`.  The source's `enable_compile` loop stops at the first coefficient
`≥ 8`, which is equivalent to requiring all coefficients `< 8`. -/
def internalize_atom_tail (p : Params) (c : Ineq) (isTrue : LBool) :
    InternalizeResult :=
  match isTrue with
  | lfalse => ⟨[[c.lit.neg]], none⟩
  | ltrue => ⟨[[c.lit]], none⟩
  | lundef =>
    if c.k = 1 then
      ⟨(c.args.map fun a => [c.lit, a.1.neg]) ++
        [c.lit.neg :: c.args.map Prod.fst], none⟩
    else
      let maxW := c.args.foldl (fun m a => max m a.2) 0
      let enable := p.enableCompilation && c.args.all fun a => a.2 < 8
      let th := if enable then c.args.length * logLoop c.args.length 1 1
        else UINT_MAX
      ⟨[], some { c with maxWatch := maxW, compilationThreshold := th }⟩

/-- `conflict_lvl` as computed at the start of
`theory_pb::resolve_conflict`: the running maximum, over the
currently-false literals of `c`, of their assignment levels. -/
def conflict_level (lvls : Nat → Nat) (va : VAssign) (c : Ineq) : Nat :=
  c.args.foldl
    (fun m a => if litAsgn va a.1 = lfalse then max m (lvls a.1.var) else m) 0

/-- The early-abandon test of `theory_pb::resolve_conflict` (lines
1729–1737): `if (lvl < ctx.get_assign_level(c.lit()) || lvl ==
ctx.get_base_level()) return false;`. -/
def resolve_conflict_returns_early (lvls : Nat → Nat) (va : VAssign)
    (base : Nat) (c : Ineq) : Bool :=
  conflict_level lvls va c < lvls c.lit.var ||
    conflict_level lvls va c == base

/-- A model value of an argument as inspected by
`pb_model_value_proc::mk_value`: the expressions `m.is_true`, `m.is_false`,
or anything else. -/
inductive MVal where
  | vtrue : MVal
  | vfalse : MVal
  | vother : MVal
deriving DecidableEq, Repr

/-- The PB atom operators dispatched on in `mk_value`
(`OP_AT_MOST_K`, `OP_AT_LEAST_K`, `OP_PB_LE`, `OP_PB_GE`). -/
inductive PbOp where
  | atMostK : PbOp
  | atLeastK : PbOp
  | pbLe : PbOp
  | pbGe : PbOp
deriving DecidableEq, Repr

/-- The argument-scanning loop of `pb_model_value_proc::mk_value`: returns
`none` (the unevaluated atom) at the first value that is neither true nor
false, otherwise the sum of the coefficients of the true arguments. -/
def mk_value_sum : List (ℤ × MVal) → Option ℤ
  | [] => some 0
  | (co, v) :: rest =>
    match v with
    | MVal.vother => none
    | MVal.vtrue => (mk_value_sum rest).map fun s => co + s
    | MVal.vfalse => mk_value_sum rest

/-- `theory_pb::pb_model_value_proc::mk_value`: evaluate a PB atom with
operator `op`, bound `k`, and per-argument coefficient/model-value pairs;
`none` stands for returning the original application unevaluated. -/
def mk_value (op : PbOp) (k : ℤ) (args : List (ℤ × MVal)) : Option Bool :=
  match mk_value_sum args with
  | none => none
  | some sum =>
    some (match op with
      | PbOp.atMostK => decide (sum ≤ k)
      | PbOp.atLeastK => decide (sum ≥ k)
      | PbOp.pbLe => decide (sum ≤ k)
      | PbOp.pbGe => decide (sum ≥ k))

/-- Evaluation of a literal under a total Boolean valuation of the
variables (used to state the semantic meaning of the emitted clauses). -/
def evalLit (b : Nat → Bool) (l : Lit) : Bool :=
  if l.sign then !(b l.var) else b l.var

/-- Evaluation of a clause (a disjunction of literals). -/
def evalClause (b : Nat → Bool) (cl : List Lit) : Bool :=
  cl.any (evalLit b)

theorem evalLit_neg (b : Nat → Bool) (l : Lit) :
    evalLit b l.neg = !evalLit b l := by
  unfold evalLit Lit.neg
  cases hs : l.sign <;> simp

/-- C5: `resolve_conflict` computes the conflict level as the maximum
assignment level among the currently-false literals of the conflicting
inequality, and abandons PB analysis (the early `return false`, before any
resolution step) exactly when that level is below the assignment level of
`lit(C₀)` or equal to the base level. -/
theorem C5_resolve_conflict_early_abandon (lvls : Nat → Nat) (va : VAssign)
    (base : Nat) (c : Ineq) :
    conflict_level lvls va c =
      (((c.args.filter fun a => litAsgn va a.1 = lfalse).map
        fun a => lvls a.1.var).foldr max 0) ∧
    (resolve_conflict_returns_early lvls va base c = true ↔
      conflict_level lvls va c < lvls c.lit.var ∨
        conflict_level lvls va c = base) := by
  constructor
  · have haux : ∀ (l : List Arg) (acc : Nat),
        l.foldl (fun m a => if litAsgn va a.1 = lfalse
            then max m (lvls a.1.var) else m) acc =
          max acc (((l.filter fun a => litAsgn va a.1 = lfalse).map
            fun a => lvls a.1.var).foldr max 0) := by
      intro l
      induction l with
      | nil => intro acc; simp
      | cons x xs ih =>
        intro acc
        by_cases hx : litAsgn va x.1 = lfalse
        · rw [List.foldl_cons, if_pos hx, ih,
            List.filter_cons_of_pos (by simpa using hx), List.map_cons,
            List.foldr_cons]
          omega
        · rw [List.foldl_cons, if_neg hx, ih,
            List.filter_cons_of_neg (by simpa using hx)]
    unfold conflict_level
    rw [haux c.args 0]
    omega
  · unfold resolve_conflict_returns_early
    simp [Nat.beq_eq]

/-- C6: when `normalize()` reports `unsat` the plugin emits the unit axiom
`¬lit(C)`, and when it reports `sat` it emits the unit axiom `lit(C)`;
in both cases the inequality is discarded and never stored in `m_ineqs`,
so no watch or propagation state is created. -/
theorem C6_internalize_trivial_atom (p : Params) (c : Ineq) :
    internalize_atom_tail p c lfalse = ⟨[[c.lit.neg]], none⟩ ∧
    internalize_atom_tail p c ltrue = ⟨[[c.lit]], none⟩ :=
  ⟨rfl, rfl⟩

/-- C7: for a normalised inequality with `k = 1`, internalisation emits
exactly the clauses `(lit ∨ ¬ℓᵢ)` for each `i` followed by
`(¬lit ∨ ℓ₁ ∨ … ∨ ℓₙ)`, stores nothing, and these clauses are
semantically the biconditional `lit(C) ↔ ⋁ᵢ ℓᵢ`. -/
theorem C7_internalize_k_one (p : Params) (c : Ineq) (hk : c.k = 1) :
    (internalize_atom_tail p c lundef).thAxioms =
      (c.args.map fun a => [c.lit, a.1.neg]) ++
        [c.lit.neg :: c.args.map Prod.fst] ∧
    (internalize_atom_tail p c lundef).stored = none ∧
    ∀ b : Nat → Bool,
      ((internalize_atom_tail p c lundef).thAxioms.all (evalClause b) = true ↔
        (evalLit b c.lit = true ↔ ∃ a ∈ c.args, evalLit b a.1 = true)) := by
  have hax : (internalize_atom_tail p c lundef).thAxioms =
      (c.args.map fun a => [c.lit, a.1.neg]) ++
        [c.lit.neg :: c.args.map Prod.fst] := by
    simp [internalize_atom_tail, hk]
  refine ⟨hax, by simp [internalize_atom_tail, hk], ?_⟩
  intro b
  rw [hax]
  simp only [List.all_eq_true, List.mem_append, List.mem_map,
    List.mem_singleton]
  constructor
  · intro h
    by_cases hL : evalLit b c.lit = true
    · have hbig := h (c.lit.neg :: c.args.map Prod.fst) (Or.inr rfl)
      simp only [evalClause, List.any_cons, Bool.or_eq_true,
        List.any_eq_true] at hbig
      constructor
      · intro _
        rcases hbig with hneg | ⟨x, hx, hv⟩
        · rw [evalLit_neg, hL] at hneg
          simp at hneg
        · obtain ⟨a, ha, rfl⟩ := List.mem_map.mp hx
          exact ⟨a, ha, hv⟩
      · intro _
        exact hL
    · constructor
      · intro hc
        exact absurd hc hL
      · rintro ⟨a, ha, hv⟩
        have hbin := h [c.lit, a.1.neg] (Or.inl ⟨a, ha, rfl⟩)
        simp only [evalClause, List.any_cons, List.any_nil, Bool.or_false,
          Bool.or_eq_true] at hbin
        rcases hbin with h1 | h2
        · exact absurd h1 hL
        · rw [evalLit_neg, hv] at h2
          simp at h2
  · intro hiff cl hcl
    rcases hcl with ⟨a, ha, rfl⟩ | rfl
    · simp only [evalClause, List.any_cons, List.any_nil, Bool.or_false,
        Bool.or_eq_true]
      by_cases hL : evalLit b c.lit = true
      · exact Or.inl hL
      · right
        rw [evalLit_neg]
        by_cases hv : evalLit b a.1 = true
        · exact absurd (hiff.mpr ⟨a, ha, hv⟩) hL
        · rw [Bool.not_eq_true] at hv
          rw [hv]
          rfl
    · simp only [evalClause, List.any_cons, Bool.or_eq_true,
        List.any_eq_true]
      by_cases hL : evalLit b c.lit = true
      · right
        obtain ⟨a, ha, hv⟩ := hiff.mp hL
        exact ⟨a.1, List.mem_map.mpr ⟨a, ha, rfl⟩, hv⟩
      · left
        rw [evalLit_neg]
        rw [Bool.not_eq_true] at hL
        rw [hL]
        rfl

theorem C7_witness :
    ((1 : ℤ) = 1) ∧
      (internalize_atom_tail ⟨0, true⟩
        { lit := ⟨3, false⟩, args := [(⟨1, false⟩, 1)], k := 1, watchSz := 0,
          watchSum := 0, maxWatch := 0, numPropagations := 0,
          compilationThreshold := 0, compiled := lfalse } lundef).stored
        = none :=
  ⟨rfl,
    (C7_internalize_k_one ⟨0, true⟩
      { lit := ⟨3, false⟩, args := [(⟨1, false⟩, 1)], k := 1, watchSz := 0,
        watchSum := 0, maxWatch := 0, numPropagations := 0,
        compilationThreshold := 0, compiled := lfalse } rfl).2.1⟩

theorem mk_value_sum_none_iff (l : List (ℤ × MVal)) :
    mk_value_sum l = none ↔ ∃ a ∈ l, a.2 = MVal.vother := by
  induction l with
  | nil => simp [mk_value_sum]
  | cons x xs ih =>
    obtain ⟨co, v⟩ := x
    cases v <;> simp [mk_value_sum, ih]

theorem mk_value_sum_eq (l : List (ℤ × MVal))
    (h : ∀ a ∈ l, a.2 ≠ MVal.vother) :
    mk_value_sum l =
      some (((l.filter fun a => a.2 = MVal.vtrue).map Prod.fst).sum) := by
  induction l with
  | nil => simp [mk_value_sum]
  | cons x xs ih =>
    obtain ⟨co, v⟩ := x
    have hxs : ∀ a ∈ xs, a.2 ≠ MVal.vother := fun a ha =>
      h a (List.mem_cons_of_mem _ ha)
    cases v with
    | vother => exact absurd rfl (h (co, MVal.vother) (List.mem_cons_self _ _))
    | vtrue => simp [mk_value_sum, ih hxs, List.filter_cons]
    | vfalse => simp [mk_value_sum, ih hxs, List.filter_cons]

/-- C10: the model-value procedure returns the original atom unevaluated
exactly when some argument's model value is neither true nor false; when
all values are Boolean constants it returns true exactly when the sum of
the coefficients of the true arguments satisfies the atom's comparison
(`≤ k` for at-most-k / pb-le, `≥ k` for at-least-k / pb-ge). -/
theorem C10_mk_value_eval (op : PbOp) (k : ℤ) (args : List (ℤ × MVal)) :
    (mk_value op k args = none ↔ ∃ a ∈ args, a.2 = MVal.vother) ∧
    ((∀ a ∈ args, a.2 ≠ MVal.vother) →
      (mk_value op k args = some true ↔
        (match op with
          | PbOp.atMostK | PbOp.pbLe =>
            ((args.filter fun a => a.2 = MVal.vtrue).map Prod.fst).sum ≤ k
          | PbOp.atLeastK | PbOp.pbGe =>
            ((args.filter fun a => a.2 = MVal.vtrue).map Prod.fst).sum ≥ k))) := by
  constructor
  · unfold mk_value
    cases hs : mk_value_sum args with
    | none =>
      simp only []
      rw [← mk_value_sum_none_iff]
      simp [hs]
    | some s =>
      simp only []
      rw [← mk_value_sum_none_iff]
      simp [hs]
  · intro h
    unfold mk_value
    rw [mk_value_sum_eq args h]
    cases op <;> simp

theorem C10_witness :
    ((∀ a ∈ ([((2 : ℤ), MVal.vtrue), ((3 : ℤ), MVal.vfalse)] :
        List (ℤ × MVal)), a.2 ≠ MVal.vother) ∧
      (mk_value PbOp.pbGe 2 [((2 : ℤ), MVal.vtrue), ((3 : ℤ), MVal.vfalse)]
        = some true ↔
        (((([((2 : ℤ), MVal.vtrue), ((3 : ℤ), MVal.vfalse)] :
          List (ℤ × MVal)).filter fun a => a.2 = MVal.vtrue).map
            Prod.fst).sum ≥ 2))) :=
  ⟨by decide,
    (C10_mk_value_eval PbOp.pbGe 2
      [((2 : ℤ), MVal.vtrue), ((3 : ℤ), MVal.vfalse)]).2 (by decide)⟩

theorem logLoop_aux (s : Nat) :
    ∀ m n lg, 0 < n → s + 1 - n ≤ m →
      logLoop s lg n = lg + (if n ≤ s then Nat.log 2 (s / n) + 1 else 0) := by
  intro m
  induction m with
  | zero =>
    intro n lg hn hm
    have hns : ¬ n ≤ s := by omega
    rw [logLoop, dif_neg (fun h => hns h.2), if_neg hns]
    omega
  | succ m ih =>
    intro n lg hn hm
    by_cases hns : n ≤ s
    · rw [logLoop, dif_pos ⟨hn, hns⟩]
      rw [ih (2 * n) (lg + 1) (by omega) (by omega)]
      by_cases h2 : 2 * n ≤ s
      · rw [if_pos h2, if_pos hns]
        have hdiv : s / (2 * n) = s / n / 2 := by
          rw [Nat.div_div_eq_div_mul, Nat.mul_comm]
        have h2' : 2 ≤ s / n := by
          rw [Nat.le_div_iff_mul_le hn]
          omega
        have hlog := Nat.log_div_base 2 (s / n)
        have hpos : 0 < Nat.log 2 (s / n) := Nat.log_pos (by norm_num) h2'
        rw [hdiv]
        omega
      · rw [if_neg h2, if_pos hns]
        have hone : s / n = 1 := Nat.div_eq_of_lt_le (by omega) (by omega)
        rw [hone, Nat.log_one_right]
    · rw [logLoop, dif_neg (fun h => hns h.2), if_neg hns]
      omega

theorem logLoop_eq_log (s : Nat) (hs : 1 ≤ s) :
    logLoop s 1 1 = Nat.log 2 s + 2 := by
  rw [logLoop_aux s (s + 1) 1 1 one_pos (by omega), if_pos hs, Nat.div_one]
  omega

theorem clog_two_succ (s : Nat) (hs : 1 ≤ s) :
    Nat.clog 2 (s + 1) = Nat.log 2 s + 1 := by
  apply le_antisymm
  · rw [← Nat.le_pow_iff_clog_le (by norm_num : (1 : ℕ) < 2)]
    have h : s < 2 ^ (Nat.log 2 s + 1) :=
      Nat.lt_pow_succ_log_self (by norm_num) s
    omega
  · have h1 : s + 1 ≤ 2 ^ Nat.clog 2 (s + 1) :=
      Nat.le_pow_clog (by norm_num) _
    have h2 : 2 ^ Nat.log 2 s ≤ s := Nat.pow_log_le_self 2 (by omega)
    by_contra hcon
    push_neg at hcon
    have h3 : Nat.clog 2 (s + 1) ≤ Nat.log 2 s := by omega
    have h4 : (2 : ℕ) ^ Nat.clog 2 (s + 1) ≤ 2 ^ Nat.log 2 s :=
      Nat.pow_le_pow_right (by norm_num) h3
    omega

theorem logLoop_eq_clog (s : Nat) (hs : 1 ≤ s) :
    logLoop s 1 1 = Nat.clog 2 (s + 1) + 1 := by
  rw [logLoop_eq_log s hs, clog_two_succ s hs]

/-- Internalisation scenario for C3: `2·x₁ + 2·x₂ ≥ 3` (two arguments,
all coefficients below 8, compilation enabled). -/
def cC3 : Ineq :=
  { lit := ⟨5, false⟩
    args := [(⟨1, false⟩, 2), (⟨2, false⟩, 2)]
    k := 3, watchSz := 0, watchSum := 0, maxWatch := 0
    numPropagations := 0, compilationThreshold := 0, compiled := lfalse }

/-- C3 counterexample: for `n = 2` arguments with compilation enabled and
coefficients below 8, the source stores threshold
`n · (⌊log₂ n⌋ + 2) = 6`, whereas the claimed formula
`n · ⌈log₂(n+1)⌉` gives `2 · 2 = 4`. -/
theorem C3_counterexample :
    ((internalize_atom_tail ⟨0, true⟩ cC3 lundef).stored.map
        Ineq.compilationThreshold) = some 6 ∧
    Nat.clog 2 (2 + 1) = 2 ∧
    ((internalize_atom_tail ⟨0, true⟩ cC3 lundef).stored.map
        Ineq.compilationThreshold) ≠ some (2 * Nat.clog 2 (2 + 1)) := by
  have hlog : logLoop 2 1 1 = 3 := by
    rw [logLoop_eq_log 2 (by norm_num)]
    have : Nat.log 2 2 = 1 :=
      Nat.log_eq_of_pow_le_of_lt_pow (by norm_num) (by norm_num)
    omega
  have hclog : Nat.clog 2 (2 + 1) = 2 := by
    rw [clog_two_succ 2 (by norm_num)]
    have : Nat.log 2 2 = 1 :=
      Nat.log_eq_of_pow_le_of_lt_pow (by norm_num) (by norm_num)
    omega
  have hth : ((internalize_atom_tail ⟨0, true⟩ cC3 lundef).stored.map
      Ineq.compilationThreshold) = some 6 := by
    have hx : ((internalize_atom_tail ⟨0, true⟩ cC3 lundef).stored.map
        Ineq.compilationThreshold) = some (2 * logLoop 2 1 1) := rfl
    rw [hx, hlog]
  refine ⟨hth, hclog, ?_⟩
  rw [hth, hclog]
  decide

/-- C3 (amended): for a stored inequality with `n ≥ 1` argument terms,
when compilation is enabled and every coefficient is below 8, the
compilation threshold is `n · (⌈log₂(n+1)⌉ + 1)` (the source's loop adds
one more than the claimed `⌈log₂(n+1)⌉`); when compilation is disabled or
some coefficient is 8 or larger, the threshold is `UINT_MAX`. -/
theorem C3_compilation_threshold (p : Params) (c : Ineq)
    (hk : ¬ c.k = 1) (hn : 1 ≤ c.args.length) :
    ((p.enableCompilation = true ∧ ∀ a ∈ c.args, a.2 < 8) →
      ∃ c', (internalize_atom_tail p c lundef).stored = some c' ∧
        c'.compilationThreshold =
          c.args.length * (Nat.clog 2 (c.args.length + 1) + 1)) ∧
    ((¬ (p.enableCompilation = true ∧ ∀ a ∈ c.args, a.2 < 8)) →
      ∃ c', (internalize_atom_tail p c lundef).stored = some c' ∧
        c'.compilationThreshold = UINT_MAX) := by
  constructor
  · rintro ⟨hen, hco⟩
    have hb : (p.enableCompilation && c.args.all fun a => a.2 < 8) = true := by
      rw [hen, Bool.true_and, List.all_eq_true]
      intro a ha
      exact decide_eq_true (hco a ha)
    have hst : (internalize_atom_tail p c lundef).stored =
        some { c with
          maxWatch := c.args.foldl (fun m a => max m a.2) 0
          compilationThreshold := c.args.length * logLoop c.args.length 1 1 } := by
      simp only [internalize_atom_tail, if_neg hk]
      rw [if_pos hb]
    exact ⟨_, hst, by rw [logLoop_eq_clog c.args.length hn]⟩
  · intro hne
    have hb : (p.enableCompilation && c.args.all fun a => a.2 < 8) = false := by
      rw [Bool.and_eq_false_iff]
      by_cases he : p.enableCompilation = true
      · right
        rw [Bool.eq_false_iff, Ne, List.all_eq_true]
        intro hall
        exact hne ⟨he, fun a ha => of_decide_eq_true (hall a ha)⟩
      · exact Or.inl (Bool.eq_false_iff.mpr he)
    have hst : (internalize_atom_tail p c lundef).stored =
        some { c with
          maxWatch := c.args.foldl (fun m a => max m a.2) 0
          compilationThreshold := UINT_MAX } := by
      simp only [internalize_atom_tail, if_neg hk]
      rw [if_neg (by rw [hb]; exact Bool.false_ne_true)]
    exact ⟨_, hst, rfl⟩

theorem C3_witness :
    (¬ (3 : ℤ) = 1) ∧ 1 ≤ cC3.args.length ∧
      ∃ c', (internalize_atom_tail ⟨0, true⟩ cC3 lundef).stored = some c' ∧
        c'.compilationThreshold =
          cC3.args.length * (Nat.clog 2 (cC3.args.length + 1) + 1) :=
  ⟨by decide, by decide,
    (C3_compilation_threshold ⟨0, true⟩ cC3 (by decide) (by decide)).1
      ⟨rfl, by decide⟩⟩

theorem zmax_foldr_nonneg (l : List ℤ) : 0 ≤ l.foldr max 0 := by
  induction l with
  | nil => simp
  | cons x xs ih =>
    simp only [List.foldr_cons]
    omega

theorem le_zmax_foldr {x : ℤ} {l : List ℤ} (h : x ∈ l) :
    x ≤ l.foldr max 0 := by
  induction l with
  | nil => simp at h
  | cons y ys ih =>
    simp only [List.foldr_cons]
    rcases List.mem_cons.mp h with rfl | h'
    · omega
    · have := ih h'
      omega

theorem zmax_foldr_le {l : List ℤ} {b : ℤ} (h : ∀ x ∈ l, x ≤ b)
    (hb : 0 ≤ b) : l.foldr max 0 ≤ b := by
  induction l with
  | nil => simpa
  | cons y ys ih =>
    simp only [List.foldr_cons]
    have h1 : y ≤ b := h y (List.mem_cons_self _ _)
    have h2 : ys.foldr max 0 ≤ b := ih fun x hx => h x (List.mem_cons_of_mem _ hx)
    omega

theorem zmax_foldr_base (l : List ℤ) (b : ℤ) (hb : 0 ≤ b) :
    l.foldr max b = max (l.foldr max 0) b := by
  induction l with
  | nil => simp; omega
  | cons y ys ih =>
    simp only [List.foldr_cons, ih]
    omega

theorem zmax_foldr_append (l : List ℤ) (x : ℤ) (hx : 0 ≤ x) :
    (l ++ [x]).foldr max 0 = max (l.foldr max 0) x := by
  rw [List.foldr_append]
  simp only [List.foldr_cons, List.foldr_nil]
  rw [zmax_foldr_base l (max x 0) (by omega)]
  omega

theorem zmax_foldr_mem (l : List ℤ) (hne : l ≠ [])
    (hpos : ∀ x ∈ l, 0 < x) : l.foldr max 0 ∈ l := by
  induction l with
  | nil => exact absurd rfl hne
  | cons y ys ih =>
    cases ys with
    | nil =>
      simp only [List.foldr_cons, List.foldr_nil]
      have : 0 < y := hpos y (List.mem_cons_self _ _)
      have : max y 0 = y := by omega
      rw [this]
      exact List.mem_singleton.mpr rfl
    | cons z zs =>
      have hme := ih (by simp)
        (fun x hx => hpos x (List.mem_cons_of_mem _ hx))
      have hgoal : (y :: z :: zs).foldr max 0 =
          max y ((z :: zs).foldr max 0) := rfl
      rw [hgoal]
      by_cases hy : (z :: zs).foldr max 0 ≤ y
      · have hmax : max y ((z :: zs).foldr max 0) = y := by omega
        rw [hmax]
        exact List.mem_cons_self _ _
      · have hmax : max y ((z :: zs).foldr max 0) =
            (z :: zs).foldr max 0 := by omega
        rw [hmax]
        exact List.mem_cons_of_mem _ hme

theorem sum_set_int (l : List ℤ) (w : Nat) (h : w < l.length) (v : ℤ) :
    (l.set w v).sum = l.sum - l.getD w 0 + v := by
  induction l generalizing w with
  | nil => simp at h
  | cons x xs ih =>
    cases w with
    | zero => simp [List.set, List.getD]; omega
    | succ w' =>
      have h' : w' < xs.length := by
        simp at h
        omega
      simp only [List.set, List.sum_cons, List.getD_cons_succ, ih w' h']
      omega

/-- The coefficients of the watched prefix of `c` (indices below
`watch_sz`). -/
def watchedCoeffs (c : Ineq) : List ℤ :=
  (c.args.take c.watchSz).map Prod.snd

/-- The watch invariant checked by `theory_pb::validate_watch`:
`watch_sum = ∑_{i<watch_sz} cᵢ` and `max_watch = max_{i<watch_sz} cᵢ`
(as a fold with neutral 0, which for positive coefficients and a nonempty
prefix is the maximum, and 0 for an empty prefix, matching the reset
value). -/
def WatchInv (c : Ineq) : Prop :=
  c.watchSum = (watchedCoeffs c).sum ∧
  c.maxWatch = (watchedCoeffs c).foldr max 0

theorem getD_eq_getElem_int (l : List Arg) (i : Nat) (h : i < l.length) :
    l.getD i dArg = l[i] := by
  rw [List.getD_eq_getElem?_getD, List.getElem?_eq_getElem h]
  rfl

theorem add_watch_watchedCoeffs (c : Ineq) (i : Nat) (hsz : c.watchSz ≤ i)
    (hlen : i < c.args.length) :
    watchedCoeffs (add_watch c i) = watchedCoeffs c ++ [c.argCoeff i] := by
  unfold watchedCoeffs add_watch Ineq.argCoeff
  dsimp only
  rw [getD_eq_getElem_int c.args i hlen]
  by_cases hgt : i > c.watchSz
  · rw [if_pos hgt, List.take_succ,
      swapIdx_take c.args i c.watchSz c.watchSz (le_of_lt hgt) le_rfl]
    have hget : (swapIdx c.args i c.watchSz)[c.watchSz]? = c.args[i]? := by
      rw [swapIdx_getElem? c.args i c.watchSz c.watchSz hlen (by omega)]
      simp
    rw [hget, List.getElem?_eq_getElem hlen]
    simp
  · have hieq : i = c.watchSz := by omega
    have htol : c.args[i]?.toList = [c.args[i]] := by
      rw [List.getElem?_eq_getElem hlen]
      rfl
    rw [if_neg hgt, ← hieq, List.take_succ, htol, List.map_append]
    rfl

theorem add_watch_inv (c : Ineq) (i : Nat) (hsz : c.watchSz ≤ i)
    (hlen : i < c.args.length) (hpos : 0 ≤ c.argCoeff i)
    (hinv : WatchInv c) : WatchInv (add_watch c i) := by
  obtain ⟨hs, hm⟩ := hinv
  have hco := add_watch_watchedCoeffs c i hsz hlen
  constructor
  · have h1 : (add_watch c i).watchSum = c.watchSum + c.argCoeff i := rfl
    rw [h1, hco, List.sum_append, hs]
    simp
  · have h1 : (add_watch c i).maxWatch =
        if c.argCoeff i > c.maxWatch then c.argCoeff i else c.maxWatch := rfl
    rw [h1, hco, zmax_foldr_append _ _ hpos, hm]
    split <;> omega

theorem mem_set_self_int (l : List ℤ) (w : Nat) (h : w < l.length) (v : ℤ) :
    v ∈ l.set w v :=
  List.mem_iff_getElem?.mpr ⟨w, List.getElem?_set_self (by simpa using h)⟩

theorem del_take_swap (args : List Arg) (w sz : Nat) (hw : w + 1 < sz)
    (hszlen : sz ≤ args.length) :
    (swapIdx args w (sz - 1)).take (sz - 1) =
      (args.take (sz - 1)).set w (args.getD (sz - 1) dArg) := by
  have hwlen : w < args.length := by omega
  have hslen : sz - 1 < args.length := by omega
  apply List.ext_getElem?
  intro n
  by_cases hn : n < sz - 1
  · rw [List.getElem?_take_of_lt hn,
      swapIdx_getElem? args w (sz - 1) n hwlen hslen]
    have h1 : ¬ n = sz - 1 := by omega
    rw [if_neg h1]
    by_cases h2 : n = w
    · subst h2
      rw [if_pos rfl]
      have hwt : n < (args.take (sz - 1)).length := by
        rw [List.length_take]
        omega
      rw [List.getElem?_set_self (by simpa using hwt),
        getD_eq_getElem_int args (sz - 1) hslen,
        List.getElem?_eq_getElem hslen]
    · rw [if_neg h2, List.getElem?_set_ne (fun h => h2 h.symm),
        List.getElem?_take_of_lt hn]
  · rw [List.getElem?_eq_none, List.getElem?_eq_none]
    · rw [List.length_set, List.length_take]
      omega
    · rw [List.length_take, swapIdx_length]
      omega

theorem del_watch_watchedCoeffs (c : Ineq) (w : Nat) (hw : w < c.watchSz)
    (hszlen : c.watchSz ≤ c.args.length) :
    watchedCoeffs (del_watch c w) =
      if w + 1 < c.watchSz
      then ((c.args.take (c.watchSz - 1)).map Prod.snd).set w
        (c.argCoeff (c.watchSz - 1))
      else (c.args.take (c.watchSz - 1)).map Prod.snd := by
  unfold watchedCoeffs del_watch Ineq.argCoeff
  dsimp only
  by_cases hcase : w + 1 < c.watchSz
  · rw [if_pos hcase, if_pos hcase,
      del_take_swap c.args w c.watchSz hcase hszlen, List.map_set]
  · rw [if_neg hcase, if_neg hcase]

theorem take_map_pos (args : List Arg) (n : Nat)
    (hpos : ∀ a ∈ args, 0 < a.2) :
    ∀ x ∈ (args.take n).map Prod.snd, 0 < x := by
  intro x hx
  obtain ⟨a, ha, rfl⟩ := List.mem_map.mp hx
  exact hpos a (List.mem_of_mem_take ha)

theorem take_map_subset (args : List Arg) (i n : Nat) (h : i ≤ n) :
    ∀ x ∈ (args.take i).map Prod.snd, x ∈ (args.take n).map Prod.snd := by
  intro x hx
  obtain ⟨a, ha, rfl⟩ := List.mem_map.mp hx
  refine List.mem_map.mpr ⟨a, ?_, rfl⟩
  have hsub : args.take i = (args.take n).take i := by
    rw [List.take_take, Nat.min_eq_left h]
  rw [hsub] at ha
  exact List.mem_of_mem_take ha

theorem take_map_nonempty (args : List Arg) (n : Nat) (h1 : 1 ≤ n)
    (h2 : n ≤ args.length) : (args.take n).map Prod.snd ≠ [] := by
  apply List.ne_nil_of_length_pos
  rw [List.length_map, List.length_take]
  omega

/-- Correctness of the early-exit maximum-recomputation loop of
`del_watch`: starting from the running maximum of the first `i` watched
coefficients, the loop returns the maximum of all `sz` watched
coefficients, provided every one of them is bounded by `oldMax` (which
holds because `oldMax` was the maximum before the removal). -/
theorem recomputeMax_correct (args : List Arg) (sz : Nat) (M : ℤ)
    (hszlen : sz ≤ args.length)
    (hbound : ∀ x ∈ (args.take sz).map Prod.snd, x ≤ M)
    (hpos : ∀ a ∈ args, 0 < a.2) :
    ∀ m i cur, 1 ≤ i → i ≤ sz → sz - i ≤ m →
      cur = ((args.take i).map Prod.snd).foldr max 0 →
      recomputeMax args sz M cur i =
        ((args.take sz).map Prod.snd).foldr max 0 := by
  intro m
  induction m with
  | zero =>
    intro i cur h1 h2 hm hcur
    have hi : i = sz := by omega
    rw [recomputeMax, dif_neg (fun hc => by omega)]
    rw [hcur, hi]
  | succ m ih =>
    intro i cur h1 h2 hm hcur
    by_cases hstop : cur ≠ M ∧ i < sz
    · rw [recomputeMax, dif_pos hstop]
      have hilen : i < args.length := by omega
      have hQi : (args.getD i dArg).2 = (args.getD i dArg).2 := rfl
      have hQipos : 0 < (args.getD i dArg).2 := by
        rw [getD_eq_getElem_int args i hilen]
        exact hpos _ (List.getElem_mem hilen)
      have hmemtake : ((args.take (i + 1)).map Prod.snd) =
          ((args.take i).map Prod.snd) ++ [(args.getD i dArg).2] := by
        rw [List.take_succ, List.getElem?_eq_getElem hilen,
          getD_eq_getElem_int args i hilen, List.map_append]
        rfl
      have hfold : ((args.take (i + 1)).map Prod.snd).foldr max 0 =
          max (((args.take i).map Prod.snd).foldr max 0)
            ((args.getD i dArg).2) := by
        rw [hmemtake, zmax_foldr_append _ _ (le_of_lt hQipos)]
      have hcur' : (if cur < (args.getD i dArg).2 then (args.getD i dArg).2
          else cur) = ((args.take (i + 1)).map Prod.snd).foldr max 0 := by
        rw [hfold, ← hcur]
        split <;> omega
      rw [hcur']
      exact ih (i + 1) _ (by omega) (by omega) (by omega) rfl
    · rw [recomputeMax, dif_neg hstop]
      by_cases hi : i < sz
      · have hcurM : cur = M := by
          by_contra hne
          exact hstop ⟨hne, hi⟩
        have hne : (args.take i).map Prod.snd ≠ [] :=
          take_map_nonempty args i h1 (by omega)
        have hposi : ∀ x ∈ (args.take i).map Prod.snd, 0 < x :=
          take_map_pos args i hpos
        have hMmem : cur ∈ (args.take i).map Prod.snd := by
          rw [hcur]
          exact zmax_foldr_mem _ hne hposi
        have hMsz : cur ∈ (args.take sz).map Prod.snd :=
          take_map_subset args i sz (by omega) _ hMmem
        apply le_antisymm
        · rw [hcurM] at hMsz ⊢
          exact le_zmax_foldr hMsz
        · rw [hcurM]
          exact zmax_foldr_le hbound
            (le_of_lt (take_map_pos args sz hpos _ (hcurM ▸ hMsz)))
      · have hi' : i = sz := by omega
        rw [hcur, hi']

/-- Entry form of `recomputeMax_correct`: the loop as it is invoked by
`del_watch`, starting at index 1 with `c.coeff(0)` as the running value. -/
theorem recomputeMax_entry (A : List Arg) (sz : Nat) (M : ℤ)
    (hlen : sz ≤ A.length) (h1 : 1 ≤ sz)
    (hpos : ∀ a ∈ A, 0 < a.2)
    (hbound : ∀ x ∈ (A.take sz).map Prod.snd, x ≤ M) :
    recomputeMax A sz M ((A.getD 0 dArg).2) 1 =
      ((A.take sz).map Prod.snd).foldr max 0 := by
  obtain ⟨x, xs, rfl⟩ : ∃ x xs, A = x :: xs := by
    cases A with
    | nil => simp at hlen; omega
    | cons x xs => exact ⟨x, xs, rfl⟩
  have hx : 0 < x.2 := hpos x (List.mem_cons_self _ _)
  have hcur : ((x :: xs).getD 0 dArg).2 =
      (((x :: xs).take 1).map Prod.snd).foldr max 0 := by
    show x.2 = max x.2 0
    omega
  rw [hcur]
  exact recomputeMax_correct (x :: xs) sz M hlen hbound hpos sz 1 _
    (le_refl 1) h1 (by omega) rfl

/-- `del_watch` preserves the watch invariant and decreases `watch_sum`
by the removed coefficient (for a well-formed watched prefix that keeps at
least one literal after the removal). -/
theorem del_watch_inv (c : Ineq) (w : Nat) (hw : w < c.watchSz)
    (hszlen : c.watchSz ≤ c.args.length)
    (hpos : ∀ a ∈ c.args, 0 < a.2)
    (hsz2 : 2 ≤ c.watchSz)
    (hinv : WatchInv c) :
    WatchInv (del_watch c w) ∧
      (del_watch c w).watchSum = c.watchSum - c.argCoeff w := by
  obtain ⟨hs, hm⟩ := hinv
  have hwlen : w < c.args.length := by omega
  have hslen : c.watchSz - 1 < c.args.length := by omega
  have hs1 : c.watchSz - 1 + 1 = c.watchSz := by omega
  have hP : watchedCoeffs c =
      ((c.args.take (c.watchSz - 1)).map Prod.snd) ++
        [c.argCoeff (c.watchSz - 1)] := by
    unfold watchedCoeffs Ineq.argCoeff
    conv_lhs => rw [← hs1]
    rw [List.take_succ, List.getElem?_eq_getElem hslen, List.map_append,
      getD_eq_getElem_int c.args (c.watchSz - 1) hslen]
    rfl
  have hlenP1 : ((c.args.take (c.watchSz - 1)).map Prod.snd).length =
      c.watchSz - 1 := by
    rw [List.length_map, List.length_take]
    omega
  have hnew := del_watch_watchedCoeffs c w hw hszlen
  have hsum' : (del_watch c w).watchSum = c.watchSum - c.argCoeff w := rfl
  have hPpos : ∀ x ∈ watchedCoeffs c, 0 < x :=
    take_map_pos c.args c.watchSz hpos
  have hsubP : ∀ x ∈ watchedCoeffs (del_watch c w), x ∈ watchedCoeffs c := by
    intro x hx
    rw [hnew] at hx
    rw [hP]
    by_cases hcase : w + 1 < c.watchSz
    · rw [if_pos hcase] at hx
      rcases List.mem_or_eq_of_mem_set hx with hx' | rfl
      · exact List.mem_append_left _ hx'
      · exact List.mem_append_right _ (List.mem_singleton.mpr rfl)
    · rw [if_neg hcase] at hx
      exact List.mem_append_left _ hx
  have hboundM : ∀ x ∈ watchedCoeffs (del_watch c w), x ≤ c.maxWatch := by
    intro x hx
    rw [hm]
    exact le_zmax_foldr (hsubP x hx)
  have hnewpos : ∀ x ∈ watchedCoeffs (del_watch c w), 0 < x :=
    fun x hx => hPpos x (hsubP x hx)
  have hMpos : 0 < c.maxWatch := by
    have hne : watchedCoeffs c ≠ [] :=
      take_map_nonempty c.args c.watchSz (by omega) hszlen
    have := zmax_foldr_mem (watchedCoeffs c) hne hPpos
    rw [hm]
    exact hPpos _ this
  refine ⟨⟨?_, ?_⟩, hsum'⟩
  · -- watch_sum invariant
    rw [hsum', hnew]
    have hsum_old : c.watchSum =
        ((c.args.take (c.watchSz - 1)).map Prod.snd).sum +
          c.argCoeff (c.watchSz - 1) := by
      rw [hs, hP, List.sum_append]
      simp
    by_cases hcase : w + 1 < c.watchSz
    · rw [if_pos hcase]
      have hwlt : w < c.watchSz - 1 := by omega
      rw [sum_set_int _ w (by omega) _]
      have hgd : ((c.args.take (c.watchSz - 1)).map Prod.snd).getD w 0 =
          c.argCoeff w := by
        rw [List.getD_eq_getElem?_getD, List.getElem?_map,
          List.getElem?_take_of_lt hwlt, List.getElem?_eq_getElem hwlen]
        unfold Ineq.argCoeff
        rw [getD_eq_getElem_int c.args w hwlen]
        rfl
      rw [hgd]
      omega
    · have hweq : w = c.watchSz - 1 := by omega
      rw [if_neg hcase, hweq]
      omega
  · -- max_watch invariant
    have hmax_eq : (del_watch c w).maxWatch =
        if c.maxWatch = c.argCoeff w then
          recomputeMax
            (if w + 1 < c.watchSz then swapIdx c.args w (c.watchSz - 1)
              else c.args)
            (c.watchSz - 1) c.maxWatch
            (((if w + 1 < c.watchSz then swapIdx c.args w (c.watchSz - 1)
              else c.args).getD 0 dArg).2) 1
        else c.maxWatch := rfl
    have hwcnew : watchedCoeffs (del_watch c w) =
        (((if w + 1 < c.watchSz then swapIdx c.args w (c.watchSz - 1)
          else c.args)).take (c.watchSz - 1)).map Prod.snd := rfl
    by_cases hMc : c.maxWatch = c.argCoeff w
    · -- the removed coefficient was the maximum: the loop recomputes it
      rw [hmax_eq, if_pos hMc]
      have hlenA : (if w + 1 < c.watchSz then swapIdx c.args w (c.watchSz - 1)
          else c.args).length = c.args.length := by
        split
        · exact swapIdx_length _ _ _
        · rfl
      have hposA : ∀ a ∈ (if w + 1 < c.watchSz then
          swapIdx c.args w (c.watchSz - 1) else c.args), 0 < a.2 := by
        intro a ha
        split at ha
        · exact hpos a ((mem_swapIdx _ _ _ a).mp ha)
        · exact hpos a ha
      have hboundA : ∀ x ∈ ((if w + 1 < c.watchSz then
          swapIdx c.args w (c.watchSz - 1) else c.args).take
            (c.watchSz - 1)).map Prod.snd, x ≤ c.maxWatch := by
        intro x hx
        exact hboundM x (by rw [hwcnew]; exact hx)
      rw [hwcnew]
      exact recomputeMax_entry _ (c.watchSz - 1) c.maxWatch
        (by rw [hlenA]; omega) (by omega) hposA hboundA
    · -- the maximum survives the removal
      rw [hmax_eq, if_neg hMc]
      have hMin : c.maxWatch ∈ watchedCoeffs c := by
        have hne : watchedCoeffs c ≠ [] :=
          take_map_nonempty c.args c.watchSz (by omega) hszlen
        rw [hm]
        exact zmax_foldr_mem (watchedCoeffs c) hne hPpos
      obtain ⟨n, hn⟩ := List.mem_iff_getElem?.mp hMin
      rw [hP] at hn
      have hMmemNew : c.maxWatch ∈ watchedCoeffs (del_watch c w) := by
        rw [hnew]
        by_cases hnlt : n < c.watchSz - 1
        · rw [List.getElem?_append_left (by omega)] at hn
          by_cases hnw : n = w
          · -- would mean the maximum is the removed coefficient
            exfalso
            have hwlt : w < c.watchSz - 1 := hnw ▸ hnlt
            rw [hnw, List.getElem?_map, List.getElem?_take_of_lt hwlt,
              List.getElem?_eq_getElem hwlen] at hn
            apply hMc
            have h2 : c.args[w].2 = c.maxWatch := by
              simpa using Option.some.inj hn
            unfold Ineq.argCoeff
            rw [getD_eq_getElem_int c.args w hwlen, h2]
          · by_cases hcase : w + 1 < c.watchSz
            · rw [if_pos hcase]
              refine List.mem_iff_getElem?.mpr ⟨n, ?_⟩
              rw [List.getElem?_set_ne (fun h => hnw h.symm)]
              exact hn
            · rw [if_neg hcase]
              exact List.mem_iff_getElem?.mpr ⟨n, hn⟩
        · -- the maximum sits at the last watched position
          have hneq : n = c.watchSz - 1 := by
            by_contra hgt
            have h1 : ((c.args.take (c.watchSz - 1)).map Prod.snd).length ≤ n := by
              omega
            rw [List.getElem?_append_right h1] at hn
            have h2 : 1 ≤ n - ((c.args.take (c.watchSz - 1)).map
                Prod.snd).length := by
              omega
            rw [List.getElem?_eq_none (by simpa using h2)] at hn
            exact Option.noConfusion hn
          subst hneq
          rw [List.getElem?_append_right (by omega), hlenP1] at hn
          simp only [Nat.sub_self, List.getElem?_cons_zero] at hn
          have hM : c.maxWatch = c.argCoeff (c.watchSz - 1) :=
            (Option.some.inj hn).symm
          by_cases hcase : w + 1 < c.watchSz
          · rw [if_pos hcase, hM]
            unfold Ineq.argCoeff
            exact mem_set_self_int _ w (by omega) _
          · exfalso
            apply hMc
            have hweq : w = c.watchSz - 1 := by omega
            rw [hweq]
            exact hM
      exact le_antisymm (le_zmax_foldr hMmemNew)
        (zmax_foldr_le hboundM (le_of_lt hMpos))

theorem swapIdx_drop (l : List Arg) (i j s : Nat) (hi : i < s) (hj : j < s) :
    (swapIdx l i j).drop s = l.drop s := by
  by_cases hil : i < l.length
  · by_cases hjl : j < l.length
    · apply List.ext_getElem?
      intro n
      rw [List.getElem?_drop, List.getElem?_drop,
        swapIdx_getElem? l i j (s + n) hil hjl]
      have h1 : ¬ (s + n = j) := by omega
      have h2 : ¬ (s + n = i) := by omega
      rw [if_neg h1, if_neg h2]
    · have h : l[j]? = none := List.getElem?_eq_none (by omega)
      unfold swapIdx
      rw [h]
      cases l[i]? <;> rfl
  · have h : l[i]? = none := List.getElem?_eq_none (by omega)
    unfold swapIdx
    rw [h]

/-- The contribution of the arguments that are not currently false
(`maxsum` as a sum over the list rather than a running fold). -/
def nfs (va : VAssign) (l : List Arg) : ℤ :=
  (l.map fun a => if litAsgn va a.1 ≠ lfalse then a.2 else 0).sum

theorem maxsum_eq_nfs (va : VAssign) (c : Ineq) :
    maxsum va c = nfs va c.args := by
  unfold maxsum nfs
  have haux : ∀ (l : List Arg) (acc : ℤ),
      l.foldl (fun s a => if litAsgn va a.1 ≠ lfalse then s + a.2 else s) acc
        = acc + (l.map fun a => if litAsgn va a.1 ≠ lfalse
            then a.2 else 0).sum := by
    intro l
    induction l with
    | nil => intro acc; simp
    | cons x xs ih =>
      intro acc
      by_cases hx : litAsgn va x.1 ≠ lfalse
      · rw [List.foldl_cons, if_pos hx, ih, List.map_cons, List.sum_cons,
          if_pos hx]
        omega
      · rw [List.foldl_cons, if_neg hx, ih, List.map_cons, List.sum_cons,
          if_neg hx]
        omega
  rw [haux c.args 0]
  omega

theorem nfs_drop_succ (va : VAssign) (l : List Arg) (i : Nat)
    (h : i < l.length) :
    nfs va (l.drop i) =
      (if litAsgn va l[i].1 ≠ lfalse then l[i].2 else 0) +
        nfs va (l.drop (i + 1)) := by
  rw [List.drop_eq_getElem_cons h]
  unfold nfs
  rw [List.map_cons, List.sum_cons]

theorem add_watch_drop (c : Ineq) (i : Nat) (h : c.watchSz ≤ i) :
    (add_watch c i).args.drop (i + 1) = c.args.drop (i + 1) := by
  unfold add_watch
  dsimp only
  split
  · exact swapIdx_drop c.args i c.watchSz (i + 1) (by omega) (by omega)
  · rfl

theorem add_watch_watchSz (c : Ineq) (i : Nat) :
    (add_watch c i).watchSz = c.watchSz + 1 := rfl

theorem zero_watch_inv (c : Ineq) :
    WatchInv { c with watchSum := 0, watchSz := 0, maxWatch := 0 } := by
  constructor <;> rfl

/-- Main loop invariant of the watch initialisation in `assign_ineq`:
the watch invariant is preserved and, on exit, either the prefix is
saturated (`watch_sum ≥ k + max_watch`) or the whole argument list was
scanned and `watch_sum` accounts for every non-false argument. -/
theorem init_watch_loop_invariant (va : VAssign) (c : Ineq) (i : Nat)
    (hinv : WatchInv c) (hszi : c.watchSz ≤ i) (hilen : i ≤ c.args.length)
    (hpos : ∀ a ∈ c.args, 0 < a.2) :
    WatchInv (init_watch_loop va c i) ∧
      ((init_watch_loop va c i).watchSum ≥
          c.k + (init_watch_loop va c i).maxWatch ∨
       (init_watch_loop va c i).watchSum =
          c.watchSum + nfs va (c.args.drop i)) := by
  induction c, i using init_watch_loop.induct va with
  | case1 c i h c' ih =>
    rw [init_watch_loop, dif_pos h]
    have hilen' : i < c.args.length := h.2
    have hposc : 0 < c.argCoeff i := by
      unfold Ineq.argCoeff
      rw [getD_eq_getElem_int c.args i hilen']
      exact hpos _ (List.getElem_mem hilen')
    show WatchInv (init_watch_loop va
        (if litAsgn va (c.args.getD i dArg).1 ≠ lfalse then add_watch c i
          else c) (i + 1)) ∧ _
    simp only [c', dite_eq_ite] at ih
    by_cases hnf : litAsgn va (c.args.getD i dArg).1 ≠ lfalse
    · rw [if_pos hnf]
      rw [if_pos hnf] at ih
      have hinv' : WatchInv (add_watch c i) :=
        add_watch_inv c i hszi hilen' (le_of_lt hposc) hinv
      have hlen' : (add_watch c i).args.length = c.args.length :=
        add_watch_length c i
      have hpos' : ∀ a ∈ (add_watch c i).args, 0 < a.2 := by
        intro a ha
        exact hpos a ((add_watch_mem c i a).mp ha)
      obtain ⟨hInv, hOr⟩ := ih hinv'
        (by rw [add_watch_watchSz]; omega) (by rw [hlen']; omega) hpos'
      refine ⟨hInv, ?_⟩
      rcases hOr with hL | hR
      · left
        exact hL
      · right
        rw [hR]
        have hws : (add_watch c i).watchSum = c.watchSum + c.argCoeff i := rfl
        have hdrop := add_watch_drop c i hszi
        rw [hws, hdrop, nfs_drop_succ va c.args i hilen']
        have hget : litAsgn va c.args[i].1 ≠ lfalse := by
          rw [← getD_eq_getElem_int c.args i hilen']
          exact hnf
        rw [if_pos hget]
        have hco : c.argCoeff i = c.args[i].2 := by
          unfold Ineq.argCoeff
          rw [getD_eq_getElem_int c.args i hilen']
        omega
    · rw [if_neg hnf]
      rw [if_neg hnf] at ih
      obtain ⟨hInv, hOr⟩ := ih hinv (by omega) (by omega) hpos
      refine ⟨hInv, ?_⟩
      rcases hOr with hL | hR
      · left
        exact hL
      · right
        rw [hR, nfs_drop_succ va c.args i hilen']
        have hget : ¬ litAsgn va c.args[i].1 ≠ lfalse := by
          rw [← getD_eq_getElem_int c.args i hilen']
          exact fun hc => hc (by
            by_contra hc2
            exact hnf (by simpa using hc2))
        rw [if_neg hget]
        omega
  | case2 c i h =>
    rw [init_watch_loop, dif_neg h]
    refine ⟨hinv, ?_⟩
    by_cases hstop : c.watchSum < c.k + c.maxWatch
    · have hlen : i = c.args.length := by
        by_contra hne
        exact h ⟨hstop, by omega⟩
      right
      rw [hlen, List.drop_length]
      unfold nfs
      simp
    · left
      omega

theorem promote_loop_lit (va : VAssign) (kk coeff : ℤ) (c : Ineq) (i : Nat) :
    (promote_loop va kk coeff c i).lit = c.lit := by
  induction c, i using promote_loop.induct va kk coeff with
  | case1 c i h c' ih =>
    rw [promote_loop, dif_pos h]
    show (promote_loop va kk coeff
      (if litAsgn va (c.args.getD i dArg).1 ≠ lfalse then add_watch c i
        else c) (i + 1)).lit = c.lit
    simp only [c', dite_eq_ite] at ih
    rw [ih]
    split <;> rfl
  | case2 c i h =>
    rw [promote_loop, dif_neg h]

theorem promote_loop_k (va : VAssign) (kk coeff : ℤ) (c : Ineq) (i : Nat) :
    (promote_loop va kk coeff c i).k = c.k := by
  induction c, i using promote_loop.induct va kk coeff with
  | case1 c i h c' ih =>
    rw [promote_loop, dif_pos h]
    show (promote_loop va kk coeff
      (if litAsgn va (c.args.getD i dArg).1 ≠ lfalse then add_watch c i
        else c) (i + 1)).k = c.k
    simp only [c', dite_eq_ite] at ih
    rw [ih]
    split <;> rfl
  | case2 c i h =>
    rw [promote_loop, dif_neg h]

theorem promote_loop_length (va : VAssign) (kk coeff : ℤ) (c : Ineq)
    (i : Nat) :
    (promote_loop va kk coeff c i).args.length = c.args.length := by
  induction c, i using promote_loop.induct va kk coeff with
  | case1 c i h c' ih =>
    rw [promote_loop, dif_pos h]
    show (promote_loop va kk coeff
      (if litAsgn va (c.args.getD i dArg).1 ≠ lfalse then add_watch c i
        else c) (i + 1)).args.length = c.args.length
    simp only [c', dite_eq_ite] at ih
    rw [ih]
    split
    · exact add_watch_length c i
    · rfl
  | case2 c i h =>
    rw [promote_loop, dif_neg h]

theorem promote_loop_sz_mono (va : VAssign) (kk coeff : ℤ) (c : Ineq)
    (i : Nat) :
    c.watchSz ≤ (promote_loop va kk coeff c i).watchSz := by
  induction c, i using promote_loop.induct va kk coeff with
  | case1 c i h c' ih =>
    rw [promote_loop, dif_pos h]
    show c.watchSz ≤ (promote_loop va kk coeff
      (if litAsgn va (c.args.getD i dArg).1 ≠ lfalse then add_watch c i
        else c) (i + 1)).watchSz
    simp only [c', dite_eq_ite] at ih
    by_cases hnf : litAsgn va (c.args.getD i dArg).1 ≠ lfalse
    · rw [if_pos hnf]
      rw [if_pos hnf, add_watch_watchSz] at ih
      omega
    · rw [if_neg hnf]
      rw [if_neg hnf] at ih
      exact ih
  | case2 c i h =>
    rw [promote_loop, dif_neg h]

theorem promote_loop_mem (va : VAssign) (kk coeff : ℤ) (c : Ineq) (i : Nat)
    (a : Arg) :
    a ∈ (promote_loop va kk coeff c i).args ↔ a ∈ c.args := by
  induction c, i using promote_loop.induct va kk coeff with
  | case1 c i h c' ih =>
    rw [promote_loop, dif_pos h]
    show a ∈ (promote_loop va kk coeff
      (if litAsgn va (c.args.getD i dArg).1 ≠ lfalse then add_watch c i
        else c) (i + 1)).args ↔ a ∈ c.args
    simp only [c', dite_eq_ite] at ih
    rw [ih]
    split
    · exact add_watch_mem c i a
    · exact Iff.rfl
  | case2 c i h =>
    rw [promote_loop, dif_neg h]

theorem promote_loop_take (va : VAssign) (kk coeff : ℤ) (c : Ineq)
    (i : Nat) :
    c.watchSz ≤ i → ∀ s, s ≤ c.watchSz →
      (promote_loop va kk coeff c i).args.take s = c.args.take s := by
  induction c, i using promote_loop.induct va kk coeff with
  | case1 c i h c' ih =>
    intro hszi s hs
    rw [promote_loop, dif_pos h]
    show (promote_loop va kk coeff
      (if litAsgn va (c.args.getD i dArg).1 ≠ lfalse then add_watch c i
        else c) (i + 1)).args.take s = c.args.take s
    simp only [c', dite_eq_ite] at ih
    by_cases hnf : litAsgn va (c.args.getD i dArg).1 ≠ lfalse
    · rw [if_pos hnf]
      rw [if_pos hnf] at ih
      have h1 := ih (by rw [add_watch_watchSz]; omega) s
        (by rw [add_watch_watchSz]; omega)
      rw [h1]
      unfold add_watch
      dsimp only
      split
      · exact swapIdx_take c.args i c.watchSz s (by omega) (by omega)
      · rfl
    · rw [if_neg hnf]
      rw [if_neg hnf] at ih
      exact ih (by omega) s hs
  | case2 c i h =>
    intro hszi s hs
    rw [promote_loop, dif_neg h]

theorem promote_loop_inv (va : VAssign) (kk coeff : ℤ) (c : Ineq) (i : Nat) :
    WatchInv c → c.watchSz ≤ i → i ≤ c.args.length →
      (∀ a ∈ c.args, 0 < a.2) →
      WatchInv (promote_loop va kk coeff c i) := by
  induction c, i using promote_loop.induct va kk coeff with
  | case1 c i h c' ih =>
    intro hinv hszi hilen hpos
    rw [promote_loop, dif_pos h]
    show WatchInv (promote_loop va kk coeff
      (if litAsgn va (c.args.getD i dArg).1 ≠ lfalse then add_watch c i
        else c) (i + 1))
    simp only [c', dite_eq_ite] at ih
    by_cases hnf : litAsgn va (c.args.getD i dArg).1 ≠ lfalse
    · rw [if_pos hnf]
      rw [if_pos hnf] at ih
      have hposc : 0 < c.argCoeff i := by
        unfold Ineq.argCoeff
        rw [getD_eq_getElem_int c.args i h.2]
        exact hpos _ (List.getElem_mem h.2)
      exact ih (add_watch_inv c i hszi h.2 (le_of_lt hposc) hinv)
        (by rw [add_watch_watchSz]; omega)
        (by rw [add_watch_length]; omega)
        (fun a ha => hpos a ((add_watch_mem c i a).mp ha))
    · rw [if_neg hnf]
      rw [if_neg hnf] at ih
      exact ih hinv (by omega) (by omega) hpos
  | case2 c i h =>
    intro hinv _ _ _
    rw [promote_loop, dif_neg h]
    exact hinv

theorem inc_propagations_watch_eq (c : Ineq) :
    (inc_propagations c).args = c.args ∧
    (inc_propagations c).watchSz = c.watchSz ∧
    (inc_propagations c).watchSum = c.watchSum ∧
    (inc_propagations c).maxWatch = c.maxWatch ∧
    (inc_propagations c).lit = c.lit ∧
    (inc_propagations c).k = c.k := by
  unfold inc_propagations
  dsimp only
  split <;> exact ⟨rfl, rfl, rfl, rfl, rfl, rfl⟩

theorem foldl_inc_watch_eq {α : Type} (l : List α) (c : Ineq) :
    (l.foldl (fun acc _ => inc_propagations acc) c).args = c.args ∧
    (l.foldl (fun acc _ => inc_propagations acc) c).watchSz = c.watchSz ∧
    (l.foldl (fun acc _ => inc_propagations acc) c).watchSum = c.watchSum ∧
    (l.foldl (fun acc _ => inc_propagations acc) c).maxWatch = c.maxWatch ∧
    (l.foldl (fun acc _ => inc_propagations acc) c).lit = c.lit ∧
    (l.foldl (fun acc _ => inc_propagations acc) c).k = c.k := by
  induction l generalizing c with
  | nil => exact ⟨rfl, rfl, rfl, rfl, rfl, rfl⟩
  | cons x xs ih =>
    simp only [List.foldl_cons]
    obtain ⟨a1, a2, a3, a4, a5, a6⟩ := ih (inc_propagations c)
    obtain ⟨b1, b2, b3, b4, b5, b6⟩ := inc_propagations_watch_eq c
    exact ⟨a1.trans b1, a2.trans b2, a3.trans b3, a4.trans b4,
      a5.trans b5, a6.trans b6⟩

theorem WatchInv_congr (c c' : Ineq) (h1 : c'.args = c.args)
    (h2 : c'.watchSz = c.watchSz) (h3 : c'.watchSum = c.watchSum)
    (h4 : c'.maxWatch = c.maxWatch) (hinv : WatchInv c) : WatchInv c' := by
  unfold WatchInv watchedCoeffs at *
  rw [h1, h2, h3, h4]
  exact hinv

theorem promote_loop_sz_le (va : VAssign) (kk coeff : ℤ) (c : Ineq)
    (i : Nat) :
    c.watchSz ≤ i → i ≤ c.args.length →
      (promote_loop va kk coeff c i).watchSz ≤
        (promote_loop va kk coeff c i).args.length := by
  induction c, i using promote_loop.induct va kk coeff with
  | case1 c i h c' ih =>
    intro hszi hilen
    rw [promote_loop, dif_pos h]
    show (promote_loop va kk coeff
      (if litAsgn va (c.args.getD i dArg).1 ≠ lfalse then add_watch c i
        else c) (i + 1)).watchSz ≤ _
    simp only [c', dite_eq_ite] at ih
    by_cases hnf : litAsgn va (c.args.getD i dArg).1 ≠ lfalse
    · rw [if_pos hnf]
      rw [if_pos hnf] at ih
      exact ih (by rw [add_watch_watchSz]; omega)
        (by rw [add_watch_length]; omega)
    · rw [if_neg hnf]
      rw [if_neg hnf] at ih
      exact ih (by omega) (by omega)
  | case2 c i h =>
    intro hszi hilen
    rw [promote_loop, dif_neg h]
    omega

/-- C9: every watch update keeps `watch_sum` equal to the sum of the
watched-prefix coefficients and `max_watch` equal to their maximum
(`WatchInv`); and when the inequality is activated or updated without a
conflict being reported, `watch_sum ≥ k` holds afterwards.  The four
conjuncts cover `add_watch`, `del_watch`, the watch initialisation in
`assign_ineq`, and `assign_watch` (whose promotion loop uses `add_watch`). -/
theorem C9_watch_invariants :
    (∀ (c : Ineq) (i : Nat), WatchInv c → c.watchSz ≤ i →
      i < c.args.length → 0 ≤ c.argCoeff i → WatchInv (add_watch c i)) ∧
    (∀ (c : Ineq) (w : Nat), WatchInv c → w < c.watchSz →
      c.watchSz ≤ c.args.length → (∀ a ∈ c.args, 0 < a.2) →
      2 ≤ c.watchSz → WatchInv (del_watch c w)) ∧
    (∀ (p : Params) (va : VAssign) (c : Ineq),
      (∀ a ∈ c.args, 0 < a.2) → ¬ maxsum va c < c.k →
      WatchInv (assign_ineq p va c).c ∧
        (assign_ineq p va c).c.watchSum ≥ c.k) ∧
    (∀ (p : Params) (va : VAssign) (c : Ineq) (w : Nat) (c2 : Ineq)
        (props : List (Lit × List Lit)),
      WatchInv c → w < c.watchSz → c.watchSz ≤ c.args.length →
      (∀ a ∈ c.args, 0 < a.2) → 0 < c.k →
      assign_watch p va w c = AssignWatchResult.noconflict c2 props →
      WatchInv c2 ∧ c2.watchSum ≥ c.k) := by
  refine ⟨?_, ?_, ?_, ?_⟩
  · intro c i hinv hsz hlen hpos
    exact add_watch_inv c i hsz hlen hpos hinv
  · intro c w hinv hw hszlen hpos hsz2
    exact (del_watch_inv c w hw hszlen hpos hsz2 hinv).1
  · intro p va c hpos hms
    obtain ⟨c1, hc1⟩ : ∃ x, init_watch_loop va
        { c with watchSum := 0, watchSz := 0, maxWatch := 0 } 0 = x := ⟨_, rfl⟩
    have hloop := init_watch_loop_invariant va
      { c with watchSum := 0, watchSz := 0, maxWatch := 0 } 0
      (zero_watch_inv c) (le_refl 0) (by simp) hpos
    rw [hc1] at hloop
    obtain ⟨hInv1, hOr⟩ := hloop
    have hmax0 : 0 ≤ c1.maxWatch := by
      rw [hInv1.2]
      exact zmax_foldr_nonneg _
    have hsum1 : c1.watchSum ≥ c.k := by
      have hkk : ({ c with watchSum := 0, watchSz := 0, maxWatch := 0 } :
          Ineq).k = c.k := rfl
      have h00 : ({ c with watchSum := 0, watchSz := 0, maxWatch := 0 } :
          Ineq).watchSum = 0 := rfl
      have hargs0 : ({ c with watchSum := 0, watchSz := 0, maxWatch := 0 } :
          Ineq).args = c.args := rfl
      rcases hOr with hL | hR
      · rw [hkk] at hL
        omega
      · rw [h00, hargs0, List.drop_zero] at hR
        rw [maxsum_eq_nfs va c] at hms
        omega
    have hres : (assign_ineq p va c).c = c1 ∨
        ∃ l : List (Lit × List Lit),
          (assign_ineq p va c).c =
            l.foldl (fun acc _ => inc_propagations acc) c1 := by
      by_cases hcond : maxsum va c ≥ c.k ∧
          maxsum va c - mininc va c < c.k
      · right
        have hpe : (assign_ineq p va c).c =
            ((c1.args.filter fun a => litAsgn va a.1 = lundef).map
              fun a => (a.1, get_unhelpful_literals va c1 true ++
                [c1.lit])).foldl (fun acc _ => inc_propagations acc) c1 := by
          simp only [assign_ineq, if_neg hms, if_pos hcond, hc1]
        exact ⟨_, hpe⟩
      · left
        simp only [assign_ineq, if_neg hms, if_neg hcond, hc1]
    rcases hres with hres | ⟨l, hres⟩
    · rw [hres]
      exact ⟨hInv1, hsum1⟩
    · rw [hres]
      obtain ⟨f1, f2, f3, f4, _, _⟩ := foldl_inc_watch_eq l c1
      refine ⟨WatchInv_congr c1 _ f1 f2 f3 f4 hInv1, ?_⟩
      rw [f3]
      exact hsum1
  · intro p va c w c2 props hinv hw hszlen hpos hk heq
    obtain ⟨c1, hc1⟩ : ∃ x, promote_loop va c.k (c.argCoeff w) c
        c.watchSz = x := ⟨_, rfl⟩
    have hInv1 : WatchInv c1 := by
      rw [← hc1]
      exact promote_loop_inv va c.k (c.argCoeff w) c c.watchSz hinv
        (le_refl _) hszlen hpos
    have hlen1 : c1.args.length = c.args.length := by
      rw [← hc1]
      exact promote_loop_length va c.k (c.argCoeff w) c c.watchSz
    have hszm : c.watchSz ≤ c1.watchSz := by
      rw [← hc1]
      exact promote_loop_sz_mono va c.k (c.argCoeff w) c c.watchSz
    have hszlen1 : c1.watchSz ≤ c1.args.length := by
      rw [← hc1]
      exact promote_loop_sz_le va c.k (c.argCoeff w) c c.watchSz
        (le_refl _) hszlen
    have hpos1 : ∀ a ∈ c1.args, 0 < a.2 := by
      intro a ha
      rw [← hc1] at ha
      exact hpos a ((promote_loop_mem va c.k (c.argCoeff w) c
        c.watchSz a).mp ha)
    have hcoeff : c1.argCoeff w = c.argCoeff w := by
      have htake : c1.args.take c.watchSz = c.args.take c.watchSz := by
        rw [← hc1]
        exact promote_loop_take va c.k (c.argCoeff w) c c.watchSz
          (le_refl _) c.watchSz (le_refl _)
      have hg : c1.args[w]? = c.args[w]? := by
        rw [← List.getElem?_take_of_lt (l := c1.args) hw,
          ← List.getElem?_take_of_lt (l := c.args) hw, htake]
      unfold Ineq.argCoeff
      rw [List.getD_eq_getElem?_getD, List.getD_eq_getElem?_getD, hg]
    by_cases hconf : c1.watchSum - c.argCoeff w < c.k
    · exfalso
      have : assign_watch p va w c = AssignWatchResult.conflict
          (add_clause_effect p c1).1
          (get_unhelpful_literals va c1 false ++ [c1.lit.neg])
          (add_clause_effect p c1).2 := by
        simp only [assign_watch, hc1, if_pos hconf]
      rw [this] at heq
      exact AssignWatchResult.noConfusion heq
    · have hsz2 : 2 ≤ c1.watchSz := by
        by_contra hlt
        have hsz1 : c1.watchSz = 1 := by omega
        have hw0 : w = 0 := by omega
        have hlen0 : 0 < c1.args.length := by omega
        have hco : watchedCoeffs c1 = [c1.args[0].2] := by
          unfold watchedCoeffs
          rw [hsz1]
          rw [show (1 : Nat) = 0 + 1 from rfl, List.take_succ, List.take_zero,
            List.getElem?_eq_getElem hlen0]
          rfl
        have hsum : c1.watchSum = c1.args[0].2 := by
          rw [hInv1.1, hco]
          simp
        have hcoeq : c1.argCoeff 0 = c1.args[0].2 := by
          unfold Ineq.argCoeff
          rw [getD_eq_getElem_int c1.args 0 hlen0]
        rw [hw0] at hcoeff hconf
        rw [← hcoeff, hcoeq] at hconf
        omega
      have hdel := del_watch_inv c1 w (by omega) hszlen1 hpos1 hsz2 hInv1
      have hdelsum : (del_watch c1 w).watchSum ≥ c.k := by
        rw [hdel.2, hcoeff]
        omega
      by_cases hprop : (del_watch c1 w).watchSum <
          c.k + (del_watch c1 w).maxWatch
      · have heq2 : assign_watch p va w c = AssignWatchResult.noconflict
            (((((del_watch c1 w).args.filter fun a =>
              litAsgn va a.1 = lundef ∧
                (del_watch c1 w).watchSum - c.k < a.2).map fun a =>
              (a.1, get_unhelpful_literals va (del_watch c1 w) true ++
                [(del_watch c1 w).lit])).foldl
              (fun acc _ => inc_propagations acc) (del_watch c1 w)))
            ((((del_watch c1 w).args.filter fun a =>
              litAsgn va a.1 = lundef ∧
                (del_watch c1 w).watchSum - c.k < a.2).map fun a =>
              (a.1, get_unhelpful_literals va (del_watch c1 w) true ++
                [(del_watch c1 w).lit]))) := by
          simp only [assign_watch, hc1, if_neg hconf, if_pos hprop]
        rw [heq2] at heq
        have hc2 : c2 = (((del_watch c1 w).args.filter fun a =>
            litAsgn va a.1 = lundef ∧
              (del_watch c1 w).watchSum - c.k < a.2).map fun a =>
            (a.1, get_unhelpful_literals va (del_watch c1 w) true ++
              [(del_watch c1 w).lit])).foldl
            (fun acc _ => inc_propagations acc) (del_watch c1 w) :=
          (AssignWatchResult.noconflict.injEq _ _ _ _ |>.mp heq.symm).1
        rw [hc2]
        obtain ⟨f1, f2, f3, f4, _, _⟩ := foldl_inc_watch_eq _ (del_watch c1 w)
        refine ⟨WatchInv_congr _ _ f1 f2 f3 f4 hdel.1, ?_⟩
        rw [f3]
        exact hdelsum
      · have heq2 : assign_watch p va w c =
            AssignWatchResult.noconflict (del_watch c1 w) [] := by
          simp only [assign_watch, hc1, if_neg hconf, if_neg hprop]
        rw [heq2] at heq
        have hc2 : c2 = del_watch c1 w :=
          (AssignWatchResult.noconflict.injEq _ _ _ _ |>.mp heq.symm).1
        rw [hc2]
        exact ⟨hdel.1, hdelsum⟩

theorem del_watch_mem (c : Ineq) (w : Nat) (a : Arg) :
    a ∈ (del_watch c w).args ↔ a ∈ c.args := by
  unfold del_watch
  dsimp only
  split
  · exact mem_swapIdx c.args w (c.watchSz - 1) a
  · exact Iff.rfl

theorem del_watch_lit (c : Ineq) (w : Nat) : (del_watch c w).lit = c.lit := rfl

theorem inc_propagations_numProps (c : Ineq) :
    (inc_propagations c).numPropagations = c.numPropagations + 1 := by
  unfold inc_propagations
  dsimp only
  split <;> rfl

theorem promote_loop_numProps (va : VAssign) (kk coeff : ℤ) (c : Ineq)
    (i : Nat) :
    (promote_loop va kk coeff c i).numPropagations = c.numPropagations := by
  induction c, i using promote_loop.induct va kk coeff with
  | case1 c i h c' ih =>
    rw [promote_loop, dif_pos h]
    show (promote_loop va kk coeff
      (if litAsgn va (c.args.getD i dArg).1 ≠ lfalse then add_watch c i
        else c) (i + 1)).numPropagations = c.numPropagations
    simp only [c', dite_eq_ite] at ih
    rw [ih]
    split <;> rfl
  | case2 c i h =>
    rw [promote_loop, dif_neg h]

/-- Whether a result of `assign_watch` is a conflict that invoked
`resolve_conflict` (`none` when no conflict was reported). -/
def AssignWatchResult.invoked? : AssignWatchResult → Option Bool
  | AssignWatchResult.conflict _ _ fl => some fl
  | AssignWatchResult.noconflict _ _ => none

/-- C2 (amended): conflict and propagation behaviour of `assign_watch`.
If, after the promotion loop, `watch_sum − coeff` is still below `k`, the
plugin emits the conflict clause made of the falsified literals and
`¬lit(C)`, and invokes conflict analysis exactly when the conflict
frequency is zero or divides the updated propagation count; otherwise the
falsified watch is removed and, if `watch_sum < k + max_watch`, exactly
the unassigned literals whose coefficient exceeds `watch_sum − k` are
propagated, each with the explanation built from `lit(C)` and the negated
falsified literals. -/
theorem C2_assign_watch (p : Params) (va : VAssign) (w : Nat) (c : Ineq)
    (c1 d : Ineq)
    (hc1 : promote_loop va c.k (c.argCoeff w) c c.watchSz = c1)
    (hd : del_watch c1 w = d) :
    (c1.watchSum - c.argCoeff w < c.k →
      ∃ c' cl fl, assign_watch p va w c = AssignWatchResult.conflict c' cl fl ∧
        (∀ x, x ∈ cl ↔ x = c.lit.neg ∨
          ∃ q, (x, q) ∈ c.args ∧ litAsgn va x = lfalse) ∧
        (fl = true ↔ (p.conflictFrequency = 0 ∨
          (c.numPropagations + 1) % p.conflictFrequency = 0))) ∧
    (¬ c1.watchSum - c.argCoeff w < c.k →
      ∃ c2 props, assign_watch p va w c =
          AssignWatchResult.noconflict c2 props ∧
        c2.watchSz = c1.watchSz - 1 ∧
        (∀ l : Lit, (∃ e, (l, e) ∈ props) ↔
          (d.watchSum < c.k + d.maxWatch ∧
            ∃ q, (l, q) ∈ c.args ∧ litAsgn va l = lundef ∧
              d.watchSum - c.k < q)) ∧
        (∀ l e, (l, e) ∈ props → ∀ x, x ∈ e ↔ x = c.lit ∨
          ∃ m q, (m, q) ∈ c.args ∧ litAsgn va m = lfalse ∧ x = m.neg)) := by
  have hmem1 : ∀ a : Arg, a ∈ c1.args ↔ a ∈ c.args := by
    intro a
    rw [← hc1]
    exact promote_loop_mem va c.k (c.argCoeff w) c c.watchSz a
  have hlit1 : c1.lit = c.lit := by
    rw [← hc1]
    exact promote_loop_lit va c.k (c.argCoeff w) c c.watchSz
  have hmemd : ∀ a : Arg, a ∈ d.args ↔ a ∈ c.args := by
    intro a
    rw [← hd, del_watch_mem]
    exact hmem1 a
  have hlitd : d.lit = c.lit := by
    rw [← hd, del_watch_lit]
    exact hlit1
  constructor
  · intro hconf
    have heq : assign_watch p va w c = AssignWatchResult.conflict
        (add_clause_effect p c1).1
        (get_unhelpful_literals va c1 false ++ [c1.lit.neg])
        (add_clause_effect p c1).2 := by
      simp only [assign_watch, hc1, if_pos hconf]
    refine ⟨_, _, _, heq, ?_, ?_⟩
    · intro x
      rw [hlit1]
      constructor
      · intro hx
        rcases List.mem_append.mp hx with hx' | hx'
        · obtain ⟨m, q, hmq, hf, hxe⟩ :=
            (mem_get_unhelpful va c1 false x).mp hx'
          have hxm : x = m := by simpa using hxe
          rw [hxm]
          exact Or.inr ⟨q, (hmem1 (m, q)).mp hmq, hf⟩
        · exact Or.inl (List.mem_singleton.mp hx')
      · intro hx
        rcases hx with rfl | ⟨q, hq, hf⟩
        · exact List.mem_append.mpr (Or.inr (List.mem_singleton.mpr rfl))
        · refine List.mem_append.mpr (Or.inl ?_)
          exact (mem_get_unhelpful va c1 false x).mpr
            ⟨x, q, (hmem1 (x, q)).mpr hq, hf, by simp⟩
    · have hnum : (add_clause_effect p c1).2 =
          (p.conflictFrequency == 0 ||
            (c.numPropagations + 1) % p.conflictFrequency == 0) := by
        unfold add_clause_effect
        dsimp only
        rw [inc_propagations_numProps]
        have : c1.numPropagations = c.numPropagations := by
          rw [← hc1]
          exact promote_loop_numProps va c.k (c.argCoeff w) c c.watchSz
        rw [this]
      rw [hnum]
      simp
  · intro hconf
    by_cases hlt : d.watchSum < c.k + d.maxWatch
    · have heq : assign_watch p va w c = AssignWatchResult.noconflict
          (((d.args.filter fun a => litAsgn va a.1 = lundef ∧
            d.watchSum - c.k < a.2).map fun a =>
            (a.1, get_unhelpful_literals va d true ++ [d.lit])).foldl
            (fun acc _ => inc_propagations acc) d)
          ((d.args.filter fun a => litAsgn va a.1 = lundef ∧
            d.watchSum - c.k < a.2).map fun a =>
            (a.1, get_unhelpful_literals va d true ++ [d.lit])) := by
        simp only [assign_watch, hc1, if_neg hconf, hd, if_pos hlt]
      refine ⟨_, _, heq, ?_, ?_, ?_⟩
      · obtain ⟨_, f2, _, _, _, _⟩ := foldl_inc_watch_eq
          ((d.args.filter fun a => litAsgn va a.1 = lundef ∧
            d.watchSum - c.k < a.2).map fun a =>
            (a.1, get_unhelpful_literals va d true ++ [d.lit])) d
        rw [f2, ← hd]
        rfl
      · intro l
        constructor
        · rintro ⟨e, he⟩
          obtain ⟨a, ha', hpair⟩ := List.mem_map.mp he
          obtain ⟨ha, hcond⟩ := List.mem_filter.mp ha'
          have hcond' : litAsgn va a.1 = lundef ∧ d.watchSum - c.k < a.2 := by
            simpa using hcond
          have h1 : a.1 = l := congrArg Prod.fst hpair
          subst h1
          exact ⟨hlt, a.2, (hmemd a).mp ha, hcond'.1, hcond'.2⟩
        · rintro ⟨_, q, hq, hu, hdef⟩
          refine ⟨_, List.mem_map.mpr ⟨(l, q), List.mem_filter.mpr
            ⟨(hmemd (l, q)).mpr hq, ?_⟩, rfl⟩⟩
          simp only [decide_eq_true_eq]
          exact ⟨hu, hdef⟩
      · intro l e he x
        obtain ⟨a, ha', hpair⟩ := List.mem_map.mp he
        have h2 : get_unhelpful_literals va d true ++ [d.lit] = e :=
          congrArg Prod.snd hpair
        subst h2
        constructor
        · intro hx
          rcases List.mem_append.mp hx with hx' | hx'
          · obtain ⟨m, q, hmq, hf, hxe⟩ :=
              (mem_get_unhelpful va d true x).mp hx'
            exact Or.inr ⟨m, q, (hmemd (m, q)).mp hmq, hf, by simpa using hxe⟩
          · left
            rw [List.mem_singleton.mp hx', hlitd]
        · intro hx
          rcases hx with rfl | ⟨m, q, hmq, hf, rfl⟩
          · refine List.mem_append.mpr (Or.inr ?_)
            rw [List.mem_singleton, hlitd]
          · refine List.mem_append.mpr (Or.inl ?_)
            exact (mem_get_unhelpful va d true _).mpr
              ⟨m, q, (hmemd (m, q)).mpr hmq, hf, by simp⟩
    · have heq : assign_watch p va w c =
          AssignWatchResult.noconflict d [] := by
        simp only [assign_watch, hc1, if_neg hconf, hd, if_neg hlt]
      refine ⟨_, _, heq, ?_, ?_, ?_⟩
      · rw [← hd]
        rfl
      · intro l
        constructor
        · rintro ⟨e, he⟩
          exact absurd he (List.not_mem_nil _)
        · rintro ⟨hlt', _⟩
          exact absurd hlt' hlt
      · intro l e he
        exact absurd he (List.not_mem_nil _)

/-- Watch scenario for C2: `x₁ + x₂ ≥ 2` fully watched, `x₁` just
falsified, no other literal available for promotion. -/
def cC2 : Ineq :=
  { lit := ⟨9, false⟩
    args := [(⟨1, false⟩, 1), (⟨2, false⟩, 1)]
    k := 2, watchSz := 2, watchSum := 2, maxWatch := 1
    numPropagations := 0, compilationThreshold := 5, compiled := lfalse }

/-- Assignment for the C2 scenario: variable 1 false, the rest true. -/
def vaC2 : VAssign := fun n => if n = 1 then lfalse else ltrue

/-- C2 counterexample: with conflict frequency 2 and an inequality whose
(incremented) propagation count is 1, `assign_watch` emits the conflict
clause but does not invoke `resolve_conflict`
(`m_conflict_frequency == 0 || 0 == m_num_propagations %
m_conflict_frequency` fails), contradicting the claim that conflict
analysis is always invoked on a conflict. -/
theorem C2_counterexample :
    (assign_watch ⟨2, false⟩ vaC2 0 cC2).invoked? = some false := by
  have hpl : promote_loop vaC2 cC2.k (cC2.argCoeff 0) cC2 cC2.watchSz
      = cC2 := by
    rw [promote_loop]
    exact dif_neg (by decide)
  have heq : assign_watch ⟨2, false⟩ vaC2 0 cC2 = AssignWatchResult.conflict
      (add_clause_effect ⟨2, false⟩ cC2).1
      (get_unhelpful_literals vaC2 cC2 false ++ [cC2.lit.neg])
      (add_clause_effect ⟨2, false⟩ cC2).2 := by
    simp only [assign_watch, hpl,
      if_pos (show cC2.watchSum - cC2.argCoeff 0 < cC2.k by decide)]
  rw [heq]
  decide

theorem C2_witness :
    cC2.watchSum - cC2.argCoeff 0 < cC2.k ∧
      ∃ c' cl fl, assign_watch ⟨2, false⟩ vaC2 0 cC2 =
          AssignWatchResult.conflict c' cl fl ∧
        (∀ x, x ∈ cl ↔ x = cC2.lit.neg ∨
          ∃ q, (x, q) ∈ cC2.args ∧ litAsgn vaC2 x = lfalse) ∧
        (fl = true ↔ ((⟨2, false⟩ : Params).conflictFrequency = 0 ∨
          (cC2.numPropagations + 1) %
            (⟨2, false⟩ : Params).conflictFrequency = 0)) :=
  ⟨by decide,
    (C2_assign_watch ⟨2, false⟩ vaC2 0 cC2 cC2 (del_watch cC2 0)
      (by rw [promote_loop]; exact dif_neg (by decide)) rfl).1 (by decide)⟩

/-- Watch scenario for C9: `2·x₁ + 3·x₂ ≥ 2` with `x₁` watched. -/
def cC9 : Ineq :=
  { lit := ⟨9, false⟩
    args := [(⟨1, false⟩, 2), (⟨2, false⟩, 3)]
    k := 2, watchSz := 1, watchSum := 2, maxWatch := 2
    numPropagations := 0, compilationThreshold := 5, compiled := lfalse }

theorem C9_witness : WatchInv (add_watch cC9 1) :=
  C9_watch_invariants.1 cC9 1 ⟨rfl, by decide⟩ (by decide) (by decide)
    (by decide)

/-!
## The sorting-network compiler `psort_nw` (lines 33-703)

The class `psort_nw` compiles cardinality constraints into clauses through a
cardinality network.  Its interaction with the host `context` consists of
allocating Boolean variables (`max`, `min`, `fresh`, which also bump the
statistics counter `m_num_compiled_vars`) and emitting clauses
(`add_clause`, which bumps `m_num_compiled_clauses`).  We embed that
interaction as explicit state passing over a record `Ctx`:

* `nextVar` stands for the supply of fresh Boolean variables of the host
  context;
* `orCache`/`andCache` stand for `ctx.b_internalized`: `max a b` builds the
  expression `a or b` and reuses its variable when the same expression was
  internalised before, and correspondingly `min` with `a and b`;
* `clauses` is the list of clauses handed to `ctx.mk_clause`, in emission
  order (its length plays the role of `m_stats.m_num_compiled_clauses`);
* `vars` is the counter `m_stats.m_num_compiled_vars`.

The static configuration flags `m_disable_dcard`, `m_disable_dsorting`,
`m_disable_dsmerge` and the three `m_force_*` flags are all `false` in the
source; the conditions in `use_dcard`, `use_dsorting`, `use_dsmerge` below
are the source conditions with those constants substituted.

The mode `m_t : cmp_t` is a data member written by `ge`/`le` before calling
`card`; we pass it as an explicit first argument `t` instead.

The recursions of the cost estimator (`vc_card` &c.) and of the network
builders (`card`, `sorting`, `merge`, `smerge`) recurse through values whose
sizes are not structurally evident (e.g. `merge` recurses on outputs of
`card`), and `vc_card 0 n` with `0 < n` even fails to terminate in the
source, so these functions take an additional `fuel` argument as a pure
totality device; every function returns a fixed default when fuel runs out,
and the fuel picked by `ge`/`le` is generous.  The claims proved below never
depend on the value computed after fuel exhaustion.
-/

namespace PSortNW

/-- `enum cmp_t { LE, GE, EQ, GE_FULL, LE_FULL }` (line 60). -/
inductive CmpT where
  | le | ge | eq | geFull | leFull
deriving DecidableEq, Repr

/-- The compiler state: the host context's variable supply and expression
cache, plus the emitted clauses and the statistics counter (see the section
comment). -/
structure Ctx where
  nextVar : Nat
  orCache : List ((Lit × Lit) × Nat)
  andCache : List ((Lit × Lit) × Nat)
  clauses : List (List Lit)
  vars : Nat
deriving DecidableEq, Repr

/-- Association-list lookup, standing for `ctx.b_internalized`/
`ctx.get_bool_var` on the cached expression. -/
def lookupVar (key : Lit × Lit) : List ((Lit × Lit) × Nat) → Option Nat
  | [] => none
  | (k, v) :: rest => if k = key then some v else lookupVar key rest

/-- `psort_nw::max` (lines 196-207): if `a = b` return `a`; otherwise bump
`m_num_compiled_vars` and return the (possibly cached) literal of the
expression `a or b`. -/
def max (a b : Lit) (st : Ctx) : Lit × Ctx :=
  if a = b then (a, st)
  else
    let st := { st with vars := st.vars + 1 }
    match lookupVar (a, b) st.orCache with
    | some v => (⟨v, false⟩, st)
    | none =>
        (⟨st.nextVar, false⟩,
         { st with nextVar := st.nextVar + 1,
                   orCache := ((a, b), st.nextVar) :: st.orCache })

/-- `psort_nw::min` (lines 209-219): as `max`, with the expression
`a and b`. -/
def min (a b : Lit) (st : Ctx) : Lit × Ctx :=
  if a = b then (a, st)
  else
    let st := { st with vars := st.vars + 1 }
    match lookupVar (a, b) st.andCache with
    | some v => (⟨v, false⟩, st)
    | none =>
        (⟨st.nextVar, false⟩,
         { st with nextVar := st.nextVar + 1,
                   andCache := ((a, b), st.nextVar) :: st.andCache })

/-- `psort_nw::fresh` (lines 221-227): a fresh positive literal, bumping
`m_num_compiled_vars`. -/
def fresh (st : Ctx) : Lit × Ctx :=
  (⟨st.nextVar, false⟩,
   { st with vars := st.vars + 1, nextVar := st.nextVar + 1 })

/-- `psort_nw::add_clause(n, ls)` (lines 236-242): record one clause
(`m_num_compiled_clauses` is `clauses.length`). -/
def add_clause (ls : List Lit) (st : Ctx) : Ctx :=
  { st with clauses := st.clauses ++ [ls] }

/-- `psort_nw::cmp_ge` (lines 246-250): `(~y2 ∨ x1)`, `(~y2 ∨ x2)`,
`(~y1 ∨ x1 ∨ x2)`. -/
def cmp_ge (x1 x2 y1 y2 : Lit) (st : Ctx) : Ctx :=
  add_clause [y1.neg, x1, x2] (add_clause [y2.neg, x2] (add_clause [y2.neg, x1] st))

/-- `psort_nw::cmp_le` (lines 254-258): `(~x1 ∨ y1)`, `(~x2 ∨ y1)`,
`(~x1 ∨ ~x2 ∨ y2)`. -/
def cmp_le (x1 x2 y1 y2 : Lit) (st : Ctx) : Ctx :=
  add_clause [x1.neg, x2.neg, y2] (add_clause [x2.neg, y1] (add_clause [x1.neg, y1] st))

/-- `psort_nw::cmp_eq` (lines 260-263). -/
def cmp_eq (x1 x2 y1 y2 : Lit) (st : Ctx) : Ctx :=
  cmp_le x1 x2 y1 y2 (cmp_ge x1 x2 y1 y2 st)

/-- `psort_nw::cmp` (lines 265-271): dispatch on the mode.  The `switch` has
no case for `GE_FULL`/`LE_FULL`, so those modes emit nothing. -/
def cmp (t : CmpT) (x1 x2 y1 y2 : Lit) (st : Ctx) : Ctx :=
  match t with
  | CmpT.le => cmp_le x1 x2 y1 y2 st
  | CmpT.ge => cmp_ge x1 x2 y1 y2 st
  | CmpT.eq => cmp_eq x1 x2 y1 y2 st
  | CmpT.geFull => st
  | CmpT.leFull => st

/-- `psort_nw::vc` (lines 34-53): a (vertex count, clause count) estimate,
compared through `to_int() = lambda*v + c` with `lambda = 5`. -/
structure VC where
  v : Nat
  c : Nat
deriving DecidableEq, Repr

def VC.toInt (x : VC) : Nat := 5 * x.v + x.c

instance : Add VC := ⟨fun x y => ⟨x.v + y.v, x.c + y.c⟩⟩

/-- `vc::operator*(unsigned n)`. -/
def VC.scale (x : VC) (n : Nat) : VC := ⟨n * x.v, n * x.c⟩

/-- `vc::operator<`. -/
def VC.lt (x y : VC) : Bool := x.toInt < y.toInt

/-- `psort_nw::even` (line 190). -/
def evenB (n : Nat) : Bool := n % 2 == 0

/-- `psort_nw::odd` (line 191). -/
def oddB (n : Nat) : Bool := !(evenB n)

/-- `psort_nw::ceil2` (line 192): `n/2 + odd(n)`. -/
def ceil2 (n : Nat) : Nat := n / 2 + (if oddB n then 1 else 0)

/-- `psort_nw::floor2` (line 193). -/
def floor2 (n : Nat) : Nat := n / 2

/-- `psort_nw::power2` (line 194): `1 << n` (asserted `n < 10`). -/
def power2 (n : Nat) : Nat := 2 ^ n

/-- `psort_nw::vc_cmp` (lines 272-274): `vc(2, m_t==EQ ? 6 : 3)`. -/
def vc_cmp (t : CmpT) : VC := ⟨2, if t = CmpT.eq then 6 else 3⟩

/-- `psort_nw::vc_interleave` (lines 416-418): `vc_cmp() * min(a-1, b)`. -/
def vc_interleave (t : CmpT) (a b : Nat) : VC :=
  (vc_cmp t).scale (Nat.min (a - 1) b)

/-- `psort_nw::vc_dsorting` (lines 676-686). -/
def vc_dsorting (t : CmpT) (m n : Nat) : VC :=
  (⟨m, 0⟩ : VC)
    + (if t ≠ CmpT.ge then (⟨0, power2 (n - 1)⟩ : VC) else ⟨0, 0⟩)
    + (if t ≠ CmpT.le then (⟨0, power2 (n - 1)⟩ : VC) else ⟨0, 0⟩)

/-- `psort_nw::vc_dsmerge` (lines 641-650). -/
def vc_dsmerge (t : CmpT) (a b c : Nat) : VC :=
  (⟨c, 0⟩ : VC)
    + (if t ≠ CmpT.ge then
        (⟨0, a + b + Nat.min a c * Nat.min b c / 2⟩ : VC) else ⟨0, 0⟩)
    + (if t ≠ CmpT.le then
        (⟨0, Nat.min a c * Nat.min b c / 2⟩ : VC) else ⟨0, 0⟩)

mutual

/-- `psort_nw::vc_card` (lines 295-305), fueled. -/
def vc_card (t : CmpT) : Nat → Nat → Nat → VC
  | 0, _, _ => ⟨0, 0⟩
  | fuel + 1, k, n =>
    if n ≤ k then vc_sorting t fuel n
    else if use_dcard t fuel k n then vc_dsorting t k n
    else vc_card_rec t fuel k n

/-- `psort_nw::vc_card_rec` (lines 306-309): with `l = n/2`,
`vc_card(k, l) + vc_card(k, n-l) + vc_smerge(k, l, n-l)`. -/
def vc_card_rec (t : CmpT) : Nat → Nat → Nat → VC
  | 0, _, _ => ⟨0, 0⟩
  | fuel + 1, k, n =>
    vc_card t fuel k (n / 2) + vc_card t fuel k (n - n / 2)
      + vc_smerge t fuel k (n / 2) (n - n / 2)

/-- `psort_nw::use_dcard` (lines 310-312), with `m_force_dcard = false` and
`m_disable_dcard = false` substituted. -/
def use_dcard (t : CmpT) : Nat → Nat → Nat → Bool
  | 0, _, _ => false
  | fuel + 1, k, n =>
    n < 10 && (vc_dsorting t k n).lt (vc_card_rec t fuel k n)

/-- `psort_nw::vc_sorting` (lines 451-464), fueled. -/
def vc_sorting (t : CmpT) : Nat → Nat → VC
  | 0, _ => ⟨0, 0⟩
  | fuel + 1, n =>
    match n with
    | 0 => ⟨0, 0⟩
    | 1 => ⟨0, 0⟩
    | 2 => vc_merge t fuel 1 1
    | _ =>
      if use_dsorting t fuel n then vc_dsorting t n n
      else vc_sorting_rec t fuel n

/-- `psort_nw::vc_sorting_rec` (lines 465-469). -/
def vc_sorting_rec (t : CmpT) : Nat → Nat → VC
  | 0, _ => ⟨0, 0⟩
  | fuel + 1, n =>
    vc_sorting t fuel (n / 2) + vc_sorting t fuel (n - n / 2)
      + vc_merge t fuel (n / 2) (n - n / 2)

/-- `psort_nw::use_dsorting` (lines 471-475), constants substituted. -/
def use_dsorting (t : CmpT) : Nat → Nat → Bool
  | 0, _ => false
  | fuel + 1, n =>
    n < 10 && (vc_dsorting t n n).lt (vc_sorting_rec t fuel n)

/-- `psort_nw::vc_merge` (lines 357-371), fueled. -/
def vc_merge (t : CmpT) : Nat → Nat → Nat → VC
  | 0, _, _ => ⟨0, 0⟩
  | fuel + 1, a, b =>
    if a = 1 ∧ b = 1 then vc_cmp t
    else if a = 0 ∨ b = 0 then ⟨0, 0⟩
    else if use_dsmerge t fuel a b (a + b) then vc_dsmerge t a b (a + b)
    else vc_merge_rec t fuel a b

/-- `psort_nw::vc_merge_rec` (lines 372-377). -/
def vc_merge_rec (t : CmpT) : Nat → Nat → Nat → VC
  | 0, _, _ => ⟨0, 0⟩
  | fuel + 1, a, b =>
    vc_merge t fuel (ceil2 a) (ceil2 b)
      + vc_merge t fuel (floor2 a) (floor2 b)
      + vc_interleave t (ceil2 a + ceil2 b) (floor2 a + floor2 b)

/-- `psort_nw::vc_smerge` (lines 563-576), fueled. -/
def vc_smerge (t : CmpT) : Nat → Nat → Nat → Nat → VC
  | 0, _, _, _ => ⟨0, 0⟩
  | fuel + 1, a, b, c =>
    if a = 1 ∧ b = 1 ∧ c = 1 then
      (⟨1, 0⟩ : VC) + (if t ≠ CmpT.ge then (⟨0, 2⟩ : VC) else ⟨0, 0⟩)
        + (if t ≠ CmpT.le then (⟨0, 1⟩ : VC) else ⟨0, 0⟩)
    else if a = 0 ∨ b = 0 then ⟨0, 0⟩
    else if c < a then vc_smerge t fuel c b c
    else if c < b then vc_smerge t fuel a c c
    else if a + b ≤ c then vc_merge t fuel a b
    else if use_dsmerge t fuel a b c then vc_dsmerge t a b c
    else vc_smerge_rec t fuel a b c

/-- `psort_nw::vc_smerge_rec` (lines 577-585). -/
def vc_smerge_rec (t : CmpT) : Nat → Nat → Nat → Nat → VC
  | 0, _, _, _ => ⟨0, 0⟩
  | fuel + 1, a, b, c =>
    vc_smerge t fuel (ceil2 a) (ceil2 b)
        (if evenB c then 1 + c / 2 else (c + 1) / 2)
      + vc_smerge t fuel (floor2 a) (floor2 b)
        (if evenB c then c / 2 else (c - 1) / 2)
      + vc_interleave t (ceil2 a + ceil2 b) (floor2 a + floor2 b)
      + (⟨1, 0⟩ : VC)
      + (if t ≠ CmpT.ge then (⟨0, 2⟩ : VC) else ⟨0, 0⟩)
      + (if t ≠ CmpT.le then (⟨0, 1⟩ : VC) else ⟨0, 0⟩)

/-- `psort_nw::use_dsmerge` (lines 586-592), constants substituted. -/
def use_dsmerge (t : CmpT) : Nat → Nat → Nat → Nat → Bool
  | 0, _, _, _ => false
  | fuel + 1, a, b, c =>
    a < 2 ^ 15 && b < 2 ^ 15
      && (vc_dsmerge t a b (a + b)).lt (vc_smerge_rec t fuel a b c)

end

/-- `psort_nw::split` (lines 378-385): even-indexed and odd-indexed
sublists. -/
def splitEO : List Lit → List Lit × List Lit
  | [] => ([], [])
  | [x] => ([x], [])
  | x :: y :: rest =>
    let (e, o) := splitEO rest
    (x :: e, y :: o)

/-- The loop of `psort_nw::interleave` (lines 395-401): for `i < sz`, build
`y1 = max(as[i+1], bs[i])`, `y2 = min(as[i+1], bs[i])`, emit
`cmp(as[i+1], bs[i], y1, y2)` and push `y1, y2`. -/
def interleave_loop (t : CmpT) (as bs : List Lit) (sz : Nat)
    (i : Nat) (out : List Lit) (st : Ctx) : List Lit × Ctx :=
  if h : i < sz then
    let x := as.getD (i + 1) trueLit
    let y := bs.getD i trueLit
    let (y1, st1) := max x y st
    let (y2, st2) := min x y st1
    let st3 := cmp t x y y1 y2 st2
    interleave_loop t as bs sz (i + 1) (out ++ [y1, y2]) st3
  else (out, st)
termination_by sz - i
decreasing_by omega

/-- `psort_nw::interleave` (lines 387-415).  The source asserts
`!as.empty()`; on `[]` we return `([], st)` (unreachable from the source's
call sites). -/
def interleave (t : CmpT) (as bs : List Lit) (st : Ctx) : List Lit × Ctx :=
  match as with
  | [] => ([], st)
  | a0 :: _ =>
    let sz := Nat.min (as.length - 1) bs.length
    let (out, st1) := interleave_loop t as bs sz 0 [a0] st
    let out2 :=
      if as.length = bs.length then out ++ [bs.getD sz trueLit]
      else if as.length = bs.length + 2 then out ++ [as.getD (sz + 1) trueLit]
      else out
    (out2, st1)

/-- The fresh-output loops of `dsorting` (lines 658-660) and `dsmerge`
(lines 603-605): push `m` fresh literals. -/
def fresh_outs (m : Nat) (st : Ctx) : List Lit × Ctx :=
  (List.range m).foldl
    (fun p _ =>
      let (y, st') := fresh p.2
      (p.1 ++ [y], st'))
    ([], st)

/-- `psort_nw::add_subset` (lines 688-702): `k = 0` emits the accumulated
clause; otherwise loop `i` from `offset` to `n - k` (the source bound
`i < n - k + 1`, well defined under the asserted `k + offset <= n`), pushing
`~xs[i]` (positive polarity) or `xs[i]` and recursing with `k-1`,
offset `i+1`. -/
def add_subset (pol : Bool) : Nat → Nat → List Lit → List Lit → Ctx → Ctx
  | 0, _, lits, _, st => add_clause lits st
  | k + 1, offset, lits, xs, st =>
    (List.range' offset (xs.length - (k + 1) + 1 - offset)).foldl
      (fun st i =>
        add_subset pol k (i + 1)
          (lits ++ [if pol then (xs.getD i trueLit).neg else xs.getD i trueLit])
          xs st)
      st

/-- `psort_nw::dsorting` (lines 653-673): allocate `m` fresh outputs; when
the mode is not `GE`, for each `k = 1..m` emit through
`add_subset(true, k, 0, [out[k-1]], n, xs)`; when the mode is not `LE`, for
each `k = 1..m` emit through
`add_subset(false, n-k+1, 0, [~out[k-1]], n, xs)`. -/
def dsorting (t : CmpT) (m : Nat) (xs : List Lit) (st : Ctx) :
    List Lit × Ctx :=
  let n := xs.length
  let (out, st1) := fresh_outs m st
  let st2 :=
    if t ≠ CmpT.ge then
      (List.range' 1 m).foldl
        (fun st k => add_subset true k 0 [out.getD (k - 1) trueLit] xs st) st1
    else st1
  let st3 :=
    if t ≠ CmpT.le then
      (List.range' 1 m).foldl
        (fun st k =>
          add_subset false (n - k + 1) 0 [(out.getD (k - 1) trueLit).neg] xs st)
        st2
    else st2
  (out, st3)

/-- `psort_nw::dsmerge` (lines 594-640): allocate `c` fresh outputs; when
the mode is not `GE` emit `(~as[i] ∨ out[i])`, `(~bs[i] ∨ out[i])` and
`(~as[i-1] ∨ ~bs[j-1] ∨ out[i+j-1])` for `1 ≤ i ≤ a`, `1 ≤ j ≤ b`,
`i+j ≤ c` (the source's inner loop guard `j <= b && i+j <= c` stops at
`j = min(b, c-i)`); when the mode is not `LE`, for each `k = 1..c` emit, for
every `1 ≤ i ≤ min(a, k-1)` with `k+1-i ≤ b`, the clause
`~out[k-1] ∨ [as[k-1] if k ≤ a] ∨ [bs[k-1] if k ≤ b] ∨ as[i-1] ∨ bs[k-i]`. -/
def dsmerge (t : CmpT) (c : Nat) (as bs : List Lit) (st : Ctx) :
    List Lit × Ctx :=
  let a := as.length
  let b := bs.length
  let (out, st1) := fresh_outs c st
  let st2 :=
    if t ≠ CmpT.ge then
      let stA := (List.range a).foldl
        (fun st i =>
          add_clause [(as.getD i trueLit).neg, out.getD i trueLit] st) st1
      let stB := (List.range b).foldl
        (fun st i =>
          add_clause [(bs.getD i trueLit).neg, out.getD i trueLit] st) stA
      (List.range' 1 a).foldl
        (fun st i =>
          (List.range' 1 (Nat.min b (c - i))).foldl
            (fun st j =>
              add_clause [(as.getD (i - 1) trueLit).neg,
                (bs.getD (j - 1) trueLit).neg,
                out.getD (i + j - 1) trueLit] st)
            st)
        stB
    else st1
  let st3 :=
    if t ≠ CmpT.le then
      (List.range' 1 c).foldl
        (fun st k =>
          let ls := [(out.getD (k - 1) trueLit).neg]
            ++ (if k ≤ a then [as.getD (k - 1) trueLit] else [])
            ++ (if k ≤ b then [bs.getD (k - 1) trueLit] else [])
          ((List.range' 1 (Nat.min a (k - 1))).filter
              (fun i => k + 1 - i ≤ b)).foldl
            (fun st i =>
              add_clause
                (ls ++ [as.getD (i - 1) trueLit, bs.getD (k - i) trueLit]) st)
            st)
        st2
    else st2
  (out, st3)

mutual

/-- `psort_nw::card` (lines 276-294), fueled: if `n ≤ k` sort everything;
if `use_dcard` use the direct encoding; else split at `l = n/2`, recurse on
both halves and `smerge` the outputs with bound `k`. -/
def card (t : CmpT) : Nat → Nat → List Lit → Ctx → List Lit × Ctx
  | 0, _, _, st => ([], st)
  | fuel + 1, k, xs, st =>
    let n := xs.length
    if n ≤ k then sorting t fuel xs st
    else if use_dcard t fuel k n then dsorting t k xs st
    else
      let l := n / 2
      let (out1, st1) := card t fuel k (xs.take l) st
      let (out2, st2) := card t fuel k (xs.drop l) st1
      smerge t fuel k out1 out2 st2

/-- `psort_nw::sorting` (lines 420-450), fueled: `n = 0,1` are immediate,
`n = 2` is a single `merge`, otherwise either the direct encoding or
split-sort-merge. -/
def sorting (t : CmpT) : Nat → List Lit → Ctx → List Lit × Ctx
  | 0, _, st => ([], st)
  | fuel + 1, xs, st =>
    match xs with
    | [] => ([], st)
    | [x] => ([x], st)
    | [x1, x2] => merge t fuel [x1] [x2] st
    | _ =>
      let n := xs.length
      if use_dsorting t fuel n then dsorting t n xs st
      else
        let l := n / 2
        let (out1, st1) := sorting t fuel (xs.take l) st
        let (out2, st2) := sorting t fuel (xs.drop l) st1
        merge t fuel out1 out2 st2

/-- `psort_nw::merge` (lines 315-356), fueled. -/
def merge (t : CmpT) : Nat → List Lit → List Lit → Ctx → List Lit × Ctx
  | 0, _, _, st => ([], st)
  | fuel + 1, as, bs, st =>
    let a := as.length
    let b := bs.length
    if a = 1 ∧ b = 1 then
      let x1 := as.getD 0 trueLit
      let x2 := bs.getD 0 trueLit
      let (y1, st1) := max x1 x2 st
      let (y2, st2) := min x1 x2 st1
      let st3 := cmp t x1 x2 y1 y2 st2
      ([y1, y2], st3)
    else if a = 0 then (bs, st)
    else if b = 0 then (as, st)
    else if use_dsmerge t fuel a b (a + b) then dsmerge t (a + b) as bs st
    else if evenB a && oddB b then merge t fuel bs as st
    else
      let (even_a, odd_a) := splitEO as
      let (even_b, odd_b) := splitEO bs
      let (out1, st1) := merge t fuel even_a even_b st
      let (out2, st2) := merge t fuel odd_a odd_b st1
      interleave t out1 out2 st2

/-- `psort_nw::smerge` (lines 477-561), fueled.  `a > c` truncates `as` to
its first `c` entries (the source passes the same pointer with count `c`),
symmetrically for `b > c`; `out1.back()`/`pop_back()` become
`getD (length-1)`/`dropLast`. -/
def smerge (t : CmpT) : Nat → Nat → List Lit → List Lit → Ctx → List Lit × Ctx
  | 0, _, _, _, st => ([], st)
  | fuel + 1, c, as, bs, st =>
    let a := as.length
    let b := bs.length
    if a = 1 ∧ b = 1 ∧ c = 1 then
      let x1 := as.getD 0 trueLit
      let x2 := bs.getD 0 trueLit
      let (y, st1) := max x1 x2 st
      let st2 :=
        if t ≠ CmpT.ge then
          add_clause [x2.neg, y] (add_clause [x1.neg, y] st1)
        else st1
      let st3 :=
        if t ≠ CmpT.le then add_clause [y.neg, x1, x2] st2 else st2
      ([y], st3)
    else if a = 0 then (bs.take (Nat.min c b), st)
    else if b = 0 then (as.take (Nat.min c a), st)
    else if c < a then smerge t fuel c (as.take c) bs st
    else if c < b then smerge t fuel c as (bs.take c) st
    else if a + b ≤ c then merge t fuel as bs st
    else if use_dsmerge t fuel a b c then dsmerge t c as bs st
    else
      let (even_a, odd_a) := splitEO as
      let (even_b, odd_b) := splitEO bs
      let c1 := if evenB c then 1 + c / 2 else (c + 1) / 2
      let c2 := if evenB c then c / 2 else (c - 1) / 2
      let (out1, st1) := smerge t fuel c1 even_a even_b st
      let (out2, st2) := smerge t fuel c2 odd_a odd_b st1
      if evenB c then
        let z1 := out1.getD (out1.length - 1) trueLit
        let z2 := out2.getD (out2.length - 1) trueLit
        let (y, st3) := max z1 z2 st2
        let st4 :=
          if t ≠ CmpT.ge then
            add_clause [z2.neg, y] (add_clause [z1.neg, y] st3)
          else st3
        let st5 :=
          if t ≠ CmpT.le then add_clause [y.neg, z1, z2] st4 else st4
        let (out3, st6) := interleave t out1.dropLast out2.dropLast st5
        (out3 ++ [y], st6)
      else
        interleave t out1 out2 st2

end

/-- `psort_nw::dualize` (lines 175-188): with `2k ≤ N` leave the instance
alone (return `false`); otherwise replace `k` by `N - k` and every literal
by its negation (return `true`).  We return the rewritten `(k, in)` in the
`some` case. -/
def dualize (k N : Nat) (xs : List Lit) : Option (Nat × List Lit) :=
  if 2 * k ≤ N then none
  else some (N - k, xs.map Lit.neg)

/-- Fuel handed to `card` by `ge`/`le`; any value at least the recursion
depth of the source (which recurses on halves) reproduces the source
computation, and the claims below do not depend on its size. -/
def card_fuel (k n : Nat) : Nat := 2 * (k + n) + 64

mutual

/-- `psort_nw::ge` (lines 83-101), fueled: `k > n` is false, `k = 0` is
true; if `dualize` rewrites the instance, solve `le` on the dual; else set
the mode to `GE_FULL`/`GE`, build `card(k, n, xs)` and return `out[k-1]`.
The mutual recursion between `ge` and `le` has depth at most one (a
dualised instance satisfies `2k ≤ n` and `dualize` leaves it alone), so a
fuel of `2` — used by the wrappers `ge`/`le` below — is never exhausted. -/
def geF : Nat → Bool → Nat → List Lit → Ctx → Lit × Ctx
  | 0, _, _, _, st => (falseLit, st)
  | fuel + 1, full, k, xs, st =>
    let n := xs.length
    if n < k then (falseLit, st)
    else if k = 0 then (trueLit, st)
    else
      match dualize k n xs with
      | some kin => leF fuel full kin.1 kin.2 st
      | none =>
        let t := if full then CmpT.geFull else CmpT.ge
        let (out, st1) := card t (card_fuel k n) k xs st
        (out.getD (k - 1) trueLit, st1)

/-- `psort_nw::le` (lines 103-118), fueled: `k ≥ n` is true; if `dualize`
rewrites the instance, solve `ge` on the dual; else set the mode to
`LE_FULL`/`LE`, build `card(k+1, n, xs)` and return `~out[k]`. -/
def leF : Nat → Bool → Nat → List Lit → Ctx → Lit × Ctx
  | 0, _, _, _, st => (trueLit, st)
  | fuel + 1, full, k, xs, st =>
    let n := xs.length
    if n ≤ k then (trueLit, st)
    else
      match dualize k n xs with
      | some kin => geF fuel full kin.1 kin.2 st
      | none =>
        let t := if full then CmpT.leFull else CmpT.le
        let (out, st1) := card t (card_fuel (k + 1) n) (k + 1) xs st
        ((out.getD k trueLit).neg, st1)

end

/-- `psort_nw::ge`: the fueled recursion at its (never exhausted) depth
bound. -/
def ge (full : Bool) (k : Nat) (xs : List Lit) (st : Ctx) : Lit × Ctx :=
  geF 2 full k xs st

/-- `psort_nw::le`: the fueled recursion at its (never exhausted) depth
bound. -/
def le (full : Bool) (k : Nat) (xs : List Lit) (st : Ctx) : Lit × Ctx :=
  leF 2 full k xs st

/-- On an instance that `dualize` leaves alone, `leF` never recurses, so
its fuel is irrelevant. -/
theorem leF_fuel (f : Nat) (full : Bool) (k : Nat) (xs : List Lit)
    (st : Ctx) (hnd : dualize k xs.length xs = none) :
    leF (f + 1) full k xs st = leF 1 full k xs st := by
  rw [show (1 : Nat) = 0 + 1 from rfl, leF, leF]
  by_cases h : xs.length ≤ k
  · rw [if_pos h, if_pos h]
  · rw [if_neg h, if_neg h, hnd]

/-- `fresh_outs` only allocates variables; it emits no clause. -/
theorem fresh_outs_clauses (m : Nat) (st : Ctx) :
    (fresh_outs m st).2.clauses = st.clauses := by
  have haux : ∀ (l : List Nat) (p : List Lit × Ctx),
      ((l.foldl
        (fun p _ =>
          let (y, st') := fresh p.2
          (p.1 ++ [y], st')) p).2.clauses = p.2.clauses) := by
    intro l
    induction l with
    | nil => intro p; rfl
    | cons x rest ih =>
      intro p
      rw [List.foldl_cons, ih]
      rfl
  exact haux (List.range m) ([], st)

/-- Folding a clause-emitting step over a list of indices adds the sum of
the per-index clause counts. -/
theorem foldl_clause_count (f : Ctx → Nat → Ctx) (g : Nat → Nat) :
    ∀ ks : List Nat,
      (∀ (st : Ctx) (k : Nat), k ∈ ks →
        (f st k).clauses.length = st.clauses.length + g k) →
      ∀ st : Ctx,
        (ks.foldl f st).clauses.length
          = st.clauses.length + (ks.map g).sum := by
  intro ks
  induction ks with
  | nil => intro _ st; simp
  | cons k rest ih =>
    intro hf st
    rw [List.foldl_cons, List.map_cons, List.sum_cons,
      ih (fun st' j hj => hf st' j (List.mem_cons_of_mem _ hj)) (f st k),
      hf st k (List.mem_cons_self _ _)]
    omega

/-- Hockey-stick identity in the form produced by the `add_subset` loop:
summing `C(n - i - 1, k)` for `i` from `offset` to `n - k - 1` gives
`C(n - offset, k + 1)`. -/
theorem choose_range'_sum (n k : Nat) :
    ∀ cnt offset : Nat, cnt + offset + k = n →
      ((List.range' offset cnt).map
        (fun i => Nat.choose (n - (i + 1)) k)).sum
        = Nat.choose (n - offset) (k + 1) := by
  intro cnt
  induction cnt with
  | zero =>
    intro offset h
    have hno : n - offset = k := by omega
    rw [hno]
    simp [Nat.choose_eq_zero_of_lt (Nat.lt_succ_self k)]
  | succ cnt ih =>
    intro offset h
    rw [List.range'_succ, List.map_cons, List.sum_cons, ih (offset + 1) (by omega)]
    have h1 : n - offset = (n - (offset + 1)) + 1 := by omega
    rw [h1, Nat.choose_succ_succ]

/-- `add_subset(pol, k, offset, lits, n, xs)` emits exactly
`C(n - offset, k)` clauses (one per `k`-subset of `xs[offset..]`),
under the asserted precondition `k + offset ≤ n`. -/
theorem add_subset_count (pol : Bool) (xs : List Lit) :
    ∀ (k offset : Nat) (lits : List Lit) (st : Ctx), k + offset ≤ xs.length →
      (add_subset pol k offset lits xs st).clauses.length
        = st.clauses.length + Nat.choose (xs.length - offset) k := by
  intro k
  induction k with
  | zero =>
    intro offset lits st _
    rw [add_subset]
    simp [add_clause]
  | succ k ih =>
    intro offset lits st h
    rw [add_subset]
    refine Eq.trans
      (foldl_clause_count _ (fun i => Nat.choose (xs.length - (i + 1)) k) _
        ?_ st) ?_
    · intro st' i hi
      have hb := List.mem_range'_1.mp hi
      exact ih (i + 1) _ st' (by omega)
    · rw [choose_range'_sum xs.length k _ offset (by omega)]

/-- Exact clause count of `dsorting`: `Σ_{k=1}^{m} C(n,k)` clauses on the
not-`GE` side and `Σ_{k=1}^{m} C(n, n-k+1)` on the not-`LE` side. -/
theorem dsorting_count (t : CmpT) (m : Nat) (xs : List Lit) (st : Ctx)
    (hm : m ≤ xs.length) :
    (dsorting t m xs st).2.clauses.length
      = st.clauses.length
        + (if t ≠ CmpT.ge then
            ((List.range' 1 m).map (fun k => Nat.choose xs.length k)).sum
          else 0)
        + (if t ≠ CmpT.le then
            ((List.range' 1 m).map
              (fun k => Nat.choose xs.length (xs.length - k + 1))).sum
          else 0) := by
  obtain ⟨fo, hfo⟩ : ∃ x, fresh_outs m st = x := ⟨_, rfl⟩
  obtain ⟨out, st1⟩ := fo
  have h1 : st1.clauses = st.clauses := by
    have := fresh_outs_clauses m st
    rw [hfo] at this
    exact this
  have hside1 : ∀ st' : Ctx,
      (((List.range' 1 m).foldl
        (fun st k => add_subset true k 0 [out.getD (k - 1) trueLit] xs st)
        st').clauses.length
        = st'.clauses.length
          + ((List.range' 1 m).map (fun k => Nat.choose xs.length k)).sum) := by
    intro st'
    refine foldl_clause_count _ _ _ ?_ st'
    intro st'' kk hk
    have hb := List.mem_range'_1.mp hk
    have hc := add_subset_count true xs kk 0 [out.getD (kk - 1) trueLit] st''
      (by omega)
    simpa using hc
  have hside2 : ∀ st' : Ctx,
      (((List.range' 1 m).foldl
        (fun st k =>
          add_subset false (xs.length - k + 1) 0
            [(out.getD (k - 1) trueLit).neg] xs st)
        st').clauses.length
        = st'.clauses.length
          + ((List.range' 1 m).map
              (fun k => Nat.choose xs.length (xs.length - k + 1))).sum) := by
    intro st'
    refine foldl_clause_count _ _ _ ?_ st'
    intro st'' kk hk
    have hb := List.mem_range'_1.mp hk
    have hc := add_subset_count false xs (xs.length - kk + 1) 0
      [(out.getD (kk - 1) trueLit).neg] st'' (by omega)
    simpa using hc
  simp only [dsorting, hfo]
  split_ifs with hle hge hge
  · rw [hside2, hside1, h1]
  · rw [hside2, h1]
    omega
  · rw [hside1, h1]
    omega
  · rw [h1]
    omega

/-- List-sum over `range'` as a `Finset.Ico` sum. -/
theorem range'_map_sum (f : Nat → Nat) :
    ∀ cnt s : Nat,
      ((List.range' s cnt).map f).sum = ∑ k ∈ Finset.Ico s (s + cnt), f k := by
  intro cnt
  induction cnt with
  | zero => intro s; simp
  | succ cnt ih =>
    intro s
    rw [List.range'_succ, List.map_cons, List.sum_cons, ih (s + 1),
      Finset.sum_eq_sum_Ico_succ_bot (by omega : s < s + (cnt + 1))]
    have h1 : s + 1 + cnt = s + (cnt + 1) := by omega
    rw [h1]

/-- The not-`GE` side of `dsorting` emits at most `2^n - 1` clauses. -/
theorem sum_choose_side1_le (n m : Nat) (hm : m ≤ n) :
    ((List.range' 1 m).map (fun k => Nat.choose n k)).sum ≤ 2 ^ n - 1 := by
  rw [range'_map_sum]
  have hsub : Finset.Ico 1 (1 + m) ⊆ Finset.Ico 1 (n + 1) := by
    intro x hx
    simp only [Finset.mem_Ico] at hx ⊢
    omega
  calc ∑ k ∈ Finset.Ico 1 (1 + m), Nat.choose n k
      ≤ ∑ k ∈ Finset.Ico 1 (n + 1), Nat.choose n k :=
        Finset.sum_le_sum_of_subset hsub
    _ = 2 ^ n - 1 := by
        have h0 : ∑ k ∈ Finset.range (n + 1), Nat.choose n k = 2 ^ n :=
          Nat.sum_range_choose n
        have h1 : ∑ k ∈ Finset.range (n + 1), Nat.choose n k
            = Nat.choose n 0 + ∑ k ∈ Finset.Ico 1 (n + 1), Nat.choose n k := by
          rw [Finset.range_eq_Ico]
          exact Finset.sum_eq_sum_Ico_succ_bot (Nat.succ_pos n) _
        rw [Nat.choose_zero_right] at h1
        omega

/-- The not-`LE` side of `dsorting` emits at most `2^n - 1` clauses. -/
theorem sum_choose_side2_le (n m : Nat) (hm : m ≤ n) :
    ((List.range' 1 m).map (fun k => Nat.choose n (n - k + 1))).sum
      ≤ 2 ^ n - 1 := by
  rw [range'_map_sum]
  have hswap : ∀ k ∈ Finset.Ico 1 (1 + m),
      Nat.choose n (n - k + 1) = Nat.choose n (k - 1) := by
    intro k hk
    simp only [Finset.mem_Ico] at hk
    have h1 : n - k + 1 = n - (k - 1) := by omega
    rw [h1, Nat.choose_symm (by omega)]
  rw [Finset.sum_congr rfl hswap, Finset.sum_Ico_eq_sum_range]
  simp only [Nat.add_sub_cancel_left]
  calc ∑ i ∈ Finset.range m, Nat.choose n i
      ≤ ∑ i ∈ Finset.range n, Nat.choose n i :=
        Finset.sum_le_sum_of_subset (Finset.range_subset.mpr hm)
    _ ≤ 2 ^ n - 1 := by
        have h0 := Nat.sum_range_choose n
        rw [Finset.sum_range_succ] at h0
        simp only [Nat.choose_self] at h0
        omega

/-- C8 (amended): for `m ≤ n`, `dsorting(m, n, xs)` emits at most
`2·(2^n - 1)` clauses in total: `Σ_{k=1}^{m} C(n,k) ≤ 2^n - 1` on the
not-`GE` side and `Σ_{k=1}^{m} C(n, n-k+1) ≤ 2^n - 1` on the not-`LE`
side.  The claimed bound `2·2^(n-1)` (the estimate hard-coded in
`vc_dsorting`) is not an upper bound on the emitted clauses. -/
theorem C8_dsorting_clauses (t : CmpT) (m : Nat) (xs : List Lit) (st : Ctx)
    (hm : m ≤ xs.length) :
    (dsorting t m xs st).2.clauses.length
      ≤ st.clauses.length + 2 * (2 ^ xs.length - 1) := by
  rw [dsorting_count t m xs st hm]
  have h1 := sum_choose_side1_le xs.length m hm
  have h2 := sum_choose_side2_le xs.length m hm
  split_ifs <;> omega

/-- A compiler state with no clauses yet. -/
def cCtxNW : Ctx := ⟨20, [], [], [], 0⟩

/-- C8 counterexample to the claimed bound: in `EQ` mode with
`m = n = 2`, `dsorting` emits `6` clauses (`Σ_{k=1}^{2} C(2,k) = 3` per
side), while the claimed bound is `2·2^(n-1) = 4`. -/
theorem C8_counterexample :
    (dsorting CmpT.eq 2 [⟨1, false⟩, ⟨2, false⟩] cCtxNW).2.clauses.length = 6
    ∧ ¬ (6 ≤ 2 * 2 ^ (2 - 1)) :=
  ⟨by decide, by decide⟩

/-- Concrete input list for the C8 witness. -/
def cXsC8 : List Lit := [⟨1, false⟩, ⟨2, false⟩, ⟨3, false⟩]

theorem C8_witness :
    2 ≤ cXsC8.length ∧
    (dsorting CmpT.le 2 cXsC8 cCtxNW).2.clauses.length
      ≤ cCtxNW.clauses.length + 2 * (2 ^ cXsC8.length - 1) :=
  ⟨by decide, C8_dsorting_clauses CmpT.le 2 cXsC8 cCtxNW (by decide)⟩

/-- C4: for `0 < k ≤ n` with `2k > n`, `ge(full, k, n, xs)` dualises:
it returns exactly `le(full, n-k, n, [~x_i])` on the same state, the
dual threshold satisfies `2(n-k) ≤ n`, and the dual instance is not
dualised again (`dualize` leaves it alone). -/
theorem C4_ge_dual (full : Bool) (k : Nat) (xs : List Lit) (st : Ctx)
    (h0 : 0 < k) (hk : k ≤ xs.length) (hd : xs.length < 2 * k) :
    ge full k xs st = le full (xs.length - k) (xs.map Lit.neg) st
    ∧ 2 * (xs.length - k) ≤ xs.length
    ∧ dualize (xs.length - k) (xs.map Lit.neg).length (xs.map Lit.neg)
        = none := by
  have hdual : dualize k xs.length xs
      = some (xs.length - k, xs.map Lit.neg) := by
    simp only [dualize]
    rw [if_neg (by omega)]
  have hnd : dualize (xs.length - k) (xs.map Lit.neg).length
      (xs.map Lit.neg) = none := by
    simp only [dualize, List.length_map]
    rw [if_pos (by omega)]
  refine ⟨?_, by omega, hnd⟩
  have h1 : geF 2 full k xs st
      = leF 1 full (xs.length - k) (xs.map Lit.neg) st := by
    rw [show (2 : Nat) = 1 + 1 from rfl, geF]
    rw [if_neg (by omega), if_neg (by omega), hdual]
  exact h1.trans
    (leF_fuel 1 full (xs.length - k) (xs.map Lit.neg) st hnd).symm

/-- Concrete input list for the C4 witness. -/
def cXsC4 : List Lit := [⟨4, false⟩, ⟨5, false⟩, ⟨6, false⟩]

/-- A compiler state for the C4 witness. -/
def cCtx4 : Ctx := ⟨30, [], [], [], 0⟩

theorem C4_witness :
    (0 < 2 ∧ 2 ≤ cXsC4.length ∧ cXsC4.length < 2 * 2) ∧
    (ge false 2 cXsC4 cCtx4
        = le false (cXsC4.length - 2) (cXsC4.map Lit.neg) cCtx4
      ∧ 2 * (cXsC4.length - 2) ≤ cXsC4.length
      ∧ dualize (cXsC4.length - 2) (cXsC4.map Lit.neg).length
          (cXsC4.map Lit.neg) = none) :=
  ⟨by decide,
    C4_ge_dual false 2 cXsC4 cCtx4 (by decide) (by decide) (by decide)⟩

end PSortNW

end TheoryPb
